import Mathlib

/-!
Shallow embedding of the Graph2 repository (DOT-text parser, layout engine,
floating-edge geometry resolver) and verification of the frozen claims.

Conventions of the embedding:
* JavaScript numbers are modelled as exact rationals; the transcendental
  functions taken from the host `Math` object (`sqrt`, `cos`, `sin`, `atan2`,
  `PI`) are supplied through an explicit `FloatOps` parameter, so theorems can
  either hold for every interpretation or assume the ideal trigonometric
  identity where the source relies on it.
* `Math.random()` is an impure oracle; it is modelled as an explicit stream
  `rng : Nat -> Rat` with a call counter threaded exactly where the source
  calls it.
* JavaScript `Map` objects are modelled as association lists with the same
  observable behaviour: `set` of a fresh key appends, `set` of an existing key
  updates in place keeping insertion order, iteration follows insertion order.
* JavaScript objects with dynamic properties (React Flow nodes and edges) are
  modelled as structures whose optional/spread-added properties are `Option`
  fields; `none` means the property is absent.
* Falsiness of `0` and of the empty string is modelled explicitly wherever the
  source uses `||` or truthiness tests on numbers and strings.
* A thrown JavaScript exception is `none`: `parseAttributes` throws a
  `TypeError` on an attribute pair with an empty quoted value (`key=""`,
  where `(match[2] || match[4]).trim()` evaluates `undefined.trim()`), and
  the throw propagates out of `parseDotToReactFlow`, discarding all state.
  Total `...T` companions (equal on the non-throwing domain, see the
  `..._eq` lemmas) carry the structural proofs.
-/

namespace Graph2

/-! ## Association-list model of JavaScript `Map` -/

/-- JS `Map.get`: first (unique) binding of the key, if any. -/
def mget {κ α : Type} [BEq κ] (m : List (κ × α)) (k : κ) : Option α :=
  (m.find? (fun p => p.1 == k)).map (fun p => p.2)

/-- JS `Map.set`: update in place when the key exists (keeping insertion
order), otherwise append at the end. -/
def mset {κ α : Type} [BEq κ] (m : List (κ × α)) (k : κ) (v : α) :
    List (κ × α) :=
  if m.any (fun p => p.1 == k) then
    m.map (fun p => if p.1 == k then (k, v) else p)
  else m ++ [(k, v)]

/-- JS `Map.has` / `Set.has`. -/
def mhas {κ α : Type} [BEq κ] (m : List (κ × α)) (k : κ) : Bool :=
  m.any (fun p => p.1 == k)

/-- JS `Set.add` (no duplicates, insertion order kept). -/
def sadd (s : List String) (x : String) : List String :=
  if s.contains x then s else s ++ [x]

/-! ## JS truthiness helpers -/

/-- A JS string is truthy iff nonempty. -/
def strTruthy (s : String) : Bool := s ≠ ""

/-- `a || b` for an optional string (absent and empty are falsy). -/
def strOr (a : Option String) (b : String) : String :=
  match a with
  | some s => if s = "" then b else s
  | none => b

/-- `a || b` for an optional number (absent and `0` are falsy). -/
def numOr (a : Option ℚ) (b : ℚ) : ℚ :=
  match a with
  | some v => if v = 0 then b else v
  | none => b

/-- Truthiness of an optional number property (absent and `0` are falsy). -/
def numTruthy (a : Option ℚ) : Bool :=
  match a with
  | some v => v ≠ 0
  | none => false

/-! ## Data model: React Flow nodes and edges as open records -/

/-- A 2D point (`{x, y}`). -/
structure Pt where
  x : ℚ
  y : ℚ
deriving DecidableEq, Repr

/-- Structured style fields produced by the attribute parser
(`color -> stroke`, `fillcolor`/`style=filled -> background`). -/
structure Style where
  stroke : Option String := none
  background : Option String := none
deriving DecidableEq, Repr

/-- A React Flow node object.  `label` models `data.label`.  The trailing
`Option` fields model the dynamic properties that `forceDirectedLayout`
spreads onto its working copies (`x`, `y`, `vx`, `vy`, `fixed`); on nodes
produced by the parser they are absent. -/
structure RFNode where
  id : String
  position : Option Pt := none
  label : String := ""
  width : Option ℚ := none
  height : Option ℚ := none
  style : Option Style := none
  x : Option ℚ := none
  y : Option ℚ := none
  vx : Option ℚ := none
  vy : Option ℚ := none
  fixed : Option Bool := none
deriving DecidableEq, Repr

/-- Attributes decoded by `parseAttributes`.  `styleRaw` models the `_style`
property, `shapeAttr` the `shape` property, `extra` the remaining
pass-through keys (JS object: later assignment to the same key overwrites in
place). -/
structure Attrs where
  label : Option String := none
  style : Option Style := none
  shapeAttr : Option String := none
  styleRaw : Option String := none
  extra : List (String × String) := []
deriving DecidableEq, Repr

/-- A React Flow edge object (`{id, source, target, ...edgeAttrs}`).  The
spread can overwrite `id`/`source`/`target` when the attribute list contains
keys of those names; all other pass-through keys (including `type`) live in
`extra`. -/
structure RFEdge where
  id : String
  source : String
  target : String
  label : Option String := none
  style : Option Style := none
  shapeAttr : Option String := none
  styleRaw : Option String := none
  extra : List (String × String) := []
deriving DecidableEq, Repr

/-- Result of `parseDotToReactFlow`. -/
structure ParseResult where
  nodes : List RFNode
  edges : List RFEdge
deriving DecidableEq, Repr

/-! ## Character-level model of the parser's regular expressions

The DOT parser works by repeatedly `exec`ing a handful of regular
expressions.  Each pattern below is embedded as a hand-written matcher over
`List Char` with the same leftmost-match, advance-on-failure, global-scan
semantics; `\w` is `[A-Za-z0-9_]`, `\s` is ASCII whitespace, `.` does not
match a newline while negated classes such as `[^;]` do. -/

abbrev Chars := List Char

/-- JS `\w`. -/
def isWordChar (c : Char) : Bool := c.isAlpha || c.isDigit || c = '_'

/-- JS `\s` (ASCII subset). -/
def isSpaceChar (c : Char) : Bool :=
  c = ' ' || c = '\t' || c = '\n' || c = '\r' || c = '\x0b' || c = '\x0c'

/-- `\s*`. -/
def skipWs (s : Chars) : Chars := s.dropWhile isSpaceChar

/-- Expect one literal character. -/
def expectChar (c : Char) : Chars → Option Chars
  | x :: t => if x = c then some t else none
  | [] => none

/-- Substring occurrence test (JS `String.includes` / an unanchored literal
regex). -/
def containsSub (needle : Chars) : Chars → Bool
  | [] => needle.isEmpty
  | c :: t => needle.isPrefixOf (c :: t) || containsSub needle t

/-- Index of the first occurrence of a substring (length of the haystack when
absent); used only to state facts about reference order in inputs. -/
def indexOfSub (needle : Chars) : Chars → Nat
  | [] => 0
  | c :: t => if needle.isPrefixOf (c :: t) then 0 else indexOfSub needle t + 1

/-- JS `String.trim` (ASCII whitespace subset). -/
def trimChars (s : Chars) : Chars :=
  ((s.dropWhile isSpaceChar).reverse.dropWhile isSpaceChar).reverse

/-- Split on newlines (for the `m` flag of the line-comment pattern). -/
def splitNl : Chars → List Chars
  | [] => [[]]
  | c :: t =>
    let r := splitNl t
    if c = '\n' then [] :: r
    else
      match r with
      | h :: rt => (c :: h) :: rt
      | [] => [[c]]

/-- One line of `replace(/\/\/.*$/gm, '')`: cut at the first `//`. -/
def cutLineComment : Chars → Chars
  | [] => []
  | c :: t =>
    if ('/' :: '/' :: []).isPrefixOf (c :: t) then []
    else c :: cutLineComment t

/-- `replace(/\/\/.*$/gm, '')`. -/
def stripLineComments (s : Chars) : Chars :=
  List.intercalate ('\n' :: []) ((splitNl s).map cutLineComment)

/-- Rest of the haystack after the earliest occurrence of the needle. -/
def afterSub (needle : Chars) : Chars → Option Chars
  | [] => if needle.isEmpty then some [] else none
  | c :: t =>
    if needle.isPrefixOf (c :: t) then some ((c :: t).drop needle.length)
    else afterSub needle t

/-- `replace(/\/\*[\s\S]*?\*\//g, '')`: drop each lazily-closed block comment,
resuming the scan after the closing `*/`; an unclosed `/*` matches nothing. -/
def stripBlockComments : Nat → Chars → Chars
  | 0, s => s
  | fuel + 1, s =>
    match s with
    | [] => []
    | c :: t =>
      if ('/' :: '*' :: []).isPrefixOf (c :: t) then
        match afterSub ('*' :: '/' :: []) ((c :: t).drop 2) with
        | some rest => stripBlockComments fuel rest
        | none => c :: t
      else c :: stripBlockComments fuel t

/-- Case-insensitive literal keyword match, returning the rest (`i` flag of
the graph-attribute patterns; keyword given in lower case). -/
def ciPrefix : Chars → Chars → Option Chars
  | [], s => some s
  | k :: kt, c :: ct => if c.toLower = k then ciPrefix kt ct else none
  | _ :: _, [] => none

/-- `kw\s*=\s*"[^"]*"\s*;` at the current position. -/
def matchEqQuotedAt (kw : Chars) (s : Chars) : Option Chars :=
  (ciPrefix kw s).bind fun r1 =>
  (expectChar '=' (skipWs r1)).bind fun r2 =>
  match skipWs r2 with
  | '"' :: r3 =>
    let content := r3.takeWhile (fun c => c ≠ '"')
    (expectChar '"' (r3.drop content.length)).bind fun r4 =>
    expectChar ';' (skipWs r4)
  | _ => none

/-- `kw\s*=\s*\w+\s*;` at the current position. -/
def matchEqWordAt (kw : Chars) (s : Chars) : Option Chars :=
  (ciPrefix kw s).bind fun r1 =>
  (expectChar '=' (skipWs r1)).bind fun r2 =>
  let r3 := skipWs r2
  let w := r3.takeWhile isWordChar
  if w.isEmpty then none
  else expectChar ';' (skipWs (r3.drop w.length))

/-- `kw\s*\[[^\]]*\]\s*;` at the current position (the `node [...]` default
statement). -/
def matchBracketStmtAt (kw : Chars) (s : Chars) : Option Chars :=
  (ciPrefix kw s).bind fun r1 =>
  (expectChar '[' (skipWs r1)).bind fun r2 =>
  let content := r2.takeWhile (fun c => c ≠ ']')
  (expectChar ']' (r2.drop content.length)).bind fun r3 =>
  expectChar ';' (skipWs r3)

/-- `kw\s*=\s*[^;]+;` at the current position (`[^;]` subsumes the `\s*`). -/
def matchEqAnyAt (kw : Chars) (s : Chars) : Option Chars :=
  (ciPrefix kw s).bind fun r1 =>
  (expectChar '=' (skipWs r1)).bind fun r2 =>
  let v := r2.takeWhile (fun c => c ≠ ';')
  if v.isEmpty then none
  else expectChar ';' (r2.drop v.length)

/-- Global `replace(pattern, '')`: leftmost matches, non-overlapping, the scan
resumes after each removed match. -/
def removeAll (m : Chars → Option Chars) : Nat → Chars → Chars
  | 0, s => s
  | fuel + 1, s =>
    match s with
    | [] => []
    | c :: t =>
      match m (c :: t) with
      | some rest => removeAll m fuel rest
      | none => c :: removeAll m fuel t

/-- The twelve graph-level attribute removal passes, in source order. -/
def graphAttrCleanup (s : Chars) : Chars :=
  let go := fun (m : Chars → Option Chars) (x : Chars) => removeAll m x.length x
  let p := go (matchEqQuotedAt "layout".toList) s
  let p := go (matchEqWordAt "layout".toList) p
  let p := go (matchBracketStmtAt "node".toList) p
  let p := go (matchEqAnyAt "ranksep".toList) p
  let p := go (matchEqAnyAt "concentrate".toList) p
  let p := go (matchEqQuotedAt "overlap".toList) p
  let p := go (matchEqWordAt "overlap".toList) p
  let p := go (matchEqWordAt "splines".toList) p
  let p := go (matchEqAnyAt "nodesep".toList) p
  let p := go (matchEqAnyAt "rankdir".toList) p
  let p := go (matchEqQuotedAt "size".toList) p
  go (matchEqAnyAt "ratio".toList) p

/-- `graphType\s+\w*\s*\{` at the current position, returning the rest after
the brace. -/
def matchGraphDeclAt (kw : Chars) (s : Chars) : Option Chars :=
  if kw.isPrefixOf s then
    match s.drop kw.length with
    | c :: t =>
      if isSpaceChar c then
        let r2 := t.dropWhile isSpaceChar
        let r3 := r2.dropWhile isWordChar
        expectChar '{' (r3.dropWhile isSpaceChar)
      else none
    | [] => none
  else none

/-- `replace(new RegExp(graphType + ...), '{')`: only the first match is
replaced. -/
def removeGraphDecl (kw : Chars) : Nat → Chars → Chars
  | 0, s => s
  | fuel + 1, s =>
    match s with
    | [] => []
    | c :: t =>
      match matchGraphDeclAt kw (c :: t) with
      | some rest => '{' :: rest
      | none => c :: removeGraphDecl kw fuel t

/-- `("([^"]+)"|(\w+))`: a quoted (nonempty) or bare identifier. -/
def matchIdent (s : Chars) : Option (Chars × Chars) :=
  match s with
  | '"' :: r =>
    let content := r.takeWhile (fun c => c ≠ '"')
    if content.isEmpty then none
    else (expectChar '"' (r.drop content.length)).map (fun rest => (content, rest))
  | _ =>
    let w := s.takeWhile isWordChar
    if w.isEmpty then none else some (w, s.drop w.length)

/-- Lazy `(.*?)\]\s*;` after an opening `[`: the engine tries each `]` in
turn (the content may not contain a newline, since `.` does not match one)
and accepts the first whose following `\s*;` also matches. -/
def lazyAttrClose (acc : Chars) : Chars → Option (Chars × Chars)
  | [] => none
  | c :: t =>
    if c = '\n' then none
    else if c = ']' then
      match expectChar ';' (skipWs t) with
      | some rest => some (acc.reverse, rest)
      | none => lazyAttrClose (c :: acc) t
    else lazyAttrClose (c :: acc) t

/-- `("([^"]+)"|(\w+))(?:\s*\[(.*?)\])?\s*;` at the current position: an
identifier, a greedy-optional bracketed attribute list, and the statement
separator.  Returns (identifier, attribute text, rest). -/
def matchNodeDefAt (s : Chars) : Option (Chars × Chars × Chars) :=
  (matchIdent s).bind fun p =>
  let idc := p.1
  let afterId := p.2
  let withAttrs :=
    match skipWs afterId with
    | '[' :: r2 => (lazyAttrClose [] r2).map (fun q => (idc, q.1, q.2))
    | _ => none
  match withAttrs with
  | some res => some res
  | none => (expectChar ';' (skipWs afterId)).map (fun rest => (idc, ([] : Chars), rest))

/-- One match of the node-definition scan, together with the context flag the
source computes from the text preceding the match (`lineSkip`: the current
line up to the match contains `=` but no edge operator, so the match is
treated as an attribute value, not a node).  The source also deduplicates on
(id, match index), but match indices strictly increase inside one scan, so
that set never rejects anything and is omitted here. -/
structure NodeDefM where
  id : String
  attrs : String
  lineSkip : Bool
deriving DecidableEq, Repr

/-- Global scan of the node-definition pattern; `revPre` is the already
scanned text, reversed, used for the same-line look-behind. -/
def scanNodeDefs : Nat → Chars → Chars → List NodeDefM
  | 0, _, _ => []
  | fuel + 1, revPre, s =>
    match s with
    | [] => []
    | c :: t =>
      match matchNodeDefAt (c :: t) with
      | some (idc, attrsc, rest) =>
        let lastLine := (revPre.takeWhile (fun x => x ≠ '\n')).reverse
        let skip := lastLine.contains '=' &&
          !(containsSub ('-' :: '>' :: []) lastLine ||
            containsSub ('-' :: '-' :: []) lastLine)
        let consumed := (c :: t).take ((c :: t).length - rest.length)
        { id := String.mk idc, attrs := String.mk attrsc, lineSkip := skip } ::
          scanNodeDefs fuel (consumed.reverse ++ revPre) rest
      | none => scanNodeDefs fuel (c :: revPre) t

/-- One match of the edge pattern. -/
structure EdgeM where
  src : String
  tgt : String
  attrs : String
deriving DecidableEq, Repr

/-- `("([^"]+)"|(\w+))\s*->\s*("([^"]+)"|(\w+))(?:\s*\[(.*?)\])?` (or `--`
when undirected) at the current position.  The trailing attribute group is
lazy with nothing after it, so it closes at the first `]` on the same line;
if it cannot close, the match ends after the target identifier. -/
def matchEdgeAt (directed : Bool) (s : Chars) : Option (EdgeM × Chars) :=
  (matchIdent s).bind fun p =>
  let r2 := skipWs p.2
  let opOk :=
    if directed then ('-' :: '>' :: []).isPrefixOf r2
    else ('-' :: '-' :: []).isPrefixOf r2
  if opOk then
    (matchIdent (skipWs (r2.drop 2))).bind fun q =>
    let withAttrs :=
      match skipWs q.2 with
      | '[' :: r5 =>
        let content := r5.takeWhile (fun c => c ≠ ']' && c ≠ '\n')
        (expectChar ']' (r5.drop content.length)).map (fun rest => (content, rest))
      | _ => none
    match withAttrs with
    | some (content, rest) =>
      some ({ src := String.mk p.1, tgt := String.mk q.1,
              attrs := String.mk content }, rest)
    | none =>
      some ({ src := String.mk p.1, tgt := String.mk q.1, attrs := "" }, q.2)
  else none

/-- Global scan of the edge pattern. -/
def scanEdges (directed : Bool) : Nat → Chars → List EdgeM
  | 0, _ => []
  | fuel + 1, s =>
    match s with
    | [] => []
    | c :: t =>
      match matchEdgeAt directed (c :: t) with
      | some (m, rest) => m :: scanEdges directed fuel rest
      | none => scanEdges directed fuel t

/-- `(\w+)\s*=\s*"([^"]*)"|(\w+)\s*=\s*([^;,\]]+)` at the current position
(quoted alternative first; in the bare alternative the value class subsumes
the `\s*`). -/
def matchAttrPairAt (s : Chars) : Option (Chars × Chars × Chars) :=
  let w := s.takeWhile isWordChar
  if w.isEmpty then none
  else
    match expectChar '=' (skipWs (s.drop w.length)) with
    | some r2 =>
      let alt1 :=
        match skipWs r2 with
        | '"' :: r3 =>
          let content := r3.takeWhile (fun c => c ≠ '"')
          (expectChar '"' (r3.drop content.length)).map (fun rest => (w, content, rest))
        | _ => none
      match alt1 with
      | some res => some res
      | none =>
        let v := r2.takeWhile (fun c => c ≠ ';' && c ≠ ',' && c ≠ ']')
        if v.isEmpty then none else some (w, v, r2.drop v.length)
    | none => none

/-- One scanned attribute pair: the key, the trimmed value, and whether the
raw matched value was empty.  A raw empty value arises exactly from the
quoted alternative matching `key=""` (the bare alternative requires at least
one character); in the source that case makes `match[2]` the falsy empty
string with `match[4]` undefined, so `(match[2] || match[4]).trim()` throws
a `TypeError`. -/
structure AttrPairM where
  key : String
  val : String
  emptyQuoted : Bool
  deriving DecidableEq, Repr

/-- Global scan of the attribute-pair pattern (values are trimmed as in the
source; the raw-empty marker records the source's `TypeError` case). -/
def scanAttrPairs : Nat → Chars → List AttrPairM
  | 0, _ => []
  | fuel + 1, s =>
    match s with
    | [] => []
    | c :: t =>
      match matchAttrPairAt (c :: t) with
      | some (k, v, rest) =>
        { key := String.mk k, val := String.mk (trimChars v),
          emptyQuoted := v.isEmpty } :: scanAttrPairs fuel rest
      | none => scanAttrPairs fuel t

/-- `String.toLowerCase` over the character list (the core `String.toLower`
is byte-position based; this is the same function, stated structurally). -/
def lowerStr (s : String) : String := String.mk (s.toList.map Char.toLower)

/-! ## `parseAttributes` -/

/-- One `switch (key)` step of `parseAttributes`. -/
def applyAttr (a : Attrs) (k v : String) : Attrs :=
  if k = "label" then { a with label := some v }
  else if k = "color" then
    { a with style := some { a.style.getD {} with stroke := some v } }
  else if k = "fillcolor" then
    { a with style := some { a.style.getD {} with background := some v } }
  else if k = "style" then
    let st := a.style.getD {}
    let st :=
      if v = "filled" then { st with background := some (strOr st.background "#fff") }
      else st
    { a with style := some st, styleRaw := some v }
  else if k = "shape" then { a with shapeAttr := some v }
  else if k = "_style" then { a with styleRaw := some v }
  else { a with extra := mset a.extra k v }

/-- One loop iteration of `parseAttributes` with the failure channel: once
thrown, nothing further runs; an empty raw value throws (`TypeError` on
`undefined.trim()`) before the `switch` is reached. -/
def applyAttrO (acc : Option Attrs) (p : AttrPairM) : Option Attrs :=
  match acc with
  | none => none
  | some a => if p.emptyQuoted then none else some (applyAttr a p.key p.val)

/-- `parseAttributes(attrString)`: `none` models the `TypeError` the source
throws when a matched pair has an empty quoted value (`key=""`). -/
def parseAttributes (attrString : String) : Option Attrs :=
  if attrString = "" then some {}
  else
    (scanAttrPairs attrString.toList.length attrString.toList).foldl
      applyAttrO (some {})

/-- The total core of `parseAttributes`: identical to it on every attribute
string without an empty quoted value (see `parseAttributes_eq`). -/
def parseAttributesT (attrString : String) : Attrs :=
  if attrString = "" then {}
  else
    (scanAttrPairs attrString.toList.length attrString.toList).foldl
      (fun a p => applyAttr a p.key p.val) {}

/-- Whether the source's attribute-pair loop throws on this attribute
string. -/
def attrStringBad (attrString : String) : Bool :=
  (scanAttrPairs attrString.toList.length attrString.toList).any
    (fun p => p.emptyQuoted)

/-! ## `parseDotToReactFlow` -/

/-- The reserved structural keywords skipped when they appear without an
attribute list. -/
def graphKeywords : List String :=
  ["node", "edge", "graph", "digraph", "subgraph"]

/-- The fresh node object built for a node-definition statement. -/
def buildNodeData (nodeId : String) (nodeAttrs : Attrs) : RFNode :=
  let base : RFNode :=
    { id := nodeId, position := some ⟨0, 0⟩, label := strOr nodeAttrs.label nodeId,
      width := some 150, height := some 40 }
  match nodeAttrs.style with
  | some st => { base with style := some st }
  | none => base

/-- JS object spread `{...oldStyle, ...newStyle}` (a field is copied when the
property is present on the new object). -/
def mergeStyle (old new_ : Style) : Style :=
  { stroke := match new_.stroke with | some s => some s | none => old.stroke,
    background := match new_.background with | some b => some b | none => old.background }

/-- Merging a repeated definition's attributes into the existing node: style
fields merged, a truthy label overrides, missing width/height backfilled. -/
def mergeNodeDef (existing : RFNode) (nodeAttrs : Attrs) : RFNode :=
  let e1 :=
    match nodeAttrs.style with
    | some st => { existing with style := some (mergeStyle (existing.style.getD {}) st) }
    | none => existing
  let e2 :=
    match nodeAttrs.label with
    | some l => if l ≠ "" then { e1 with label := l } else e1
    | none => e1
  let e3 := if numTruthy e2.width then e2 else { e2 with width := some 150 }
  if numTruthy e3.height then e3 else { e3 with height := some 40 }

/-- Processing one node-definition match against the node map (create, or
merge into an existing node). -/
def defStep (m : List (String × RFNode)) (d : NodeDefM) : List (String × RFNode) :=
  if d.lineSkip then m
  else if graphKeywords.contains (lowerStr d.id) && d.attrs = "" then m
  else if !(mhas m d.id) || d.attrs ≠ "" then
    let nodeAttrs := parseAttributesT d.attrs
    match mget m d.id with
    | some existing => mset m d.id (mergeNodeDef existing nodeAttrs)
    | none => mset m d.id (buildNodeData d.id nodeAttrs)
  else m

/-- `defStep` with the source's failure channel: `parseAttributes` is
evaluated (and can throw) exactly when the create-or-update branch is
entered.  `defStepO_eq` relates it to the total core. -/
def defStepO (m : List (String × RFNode)) (d : NodeDefM) :
    Option (List (String × RFNode)) :=
  if d.lineSkip then some m
  else if graphKeywords.contains (lowerStr d.id) && d.attrs = "" then some m
  else if !(mhas m d.id) || d.attrs ≠ "" then
    match parseAttributes d.attrs with
    | none => none
    | some nodeAttrs =>
      match mget m d.id with
      | some existing => some (mset m d.id (mergeNodeDef existing nodeAttrs))
      | none => some (mset m d.id (buildNodeData d.id nodeAttrs))
  else some m

/-- The default node object auto-created for an edge endpoint. -/
def autoNode (idv : String) : RFNode :=
  { id := idv, position := some ⟨0, 0⟩, label := idv,
    width := some 150, height := some 40 }

/-- Processing one edge match: auto-create missing endpoints, then build the
edge object `{id, source, target, ...edgeAttrs}` — the spread can overwrite
`id`/`source`/`target` when the attribute list contains those keys. -/
def edgeStep (acc : List (String × RFNode) × List RFEdge × Nat) (m : EdgeM) :
    List (String × RFNode) × List RFEdge × Nat :=
  let nm0 := acc.1
  let es := acc.2.1
  let ctr := acc.2.2
  let nm1 := if mhas nm0 m.src then nm0 else mset nm0 m.src (autoNode m.src)
  let nm2 := if mhas nm1 m.tgt then nm1 else mset nm1 m.tgt (autoNode m.tgt)
  let edgeAttrs := parseAttributesT m.attrs
  let genId := "e" ++ m.src ++ "-" ++ m.tgt ++ "-" ++ toString ctr
  let edge : RFEdge :=
    { id := (mget edgeAttrs.extra "id").getD genId,
      source := (mget edgeAttrs.extra "source").getD m.src,
      target := (mget edgeAttrs.extra "target").getD m.tgt,
      label := edgeAttrs.label,
      style := edgeAttrs.style,
      shapeAttr := edgeAttrs.shapeAttr,
      styleRaw := edgeAttrs.styleRaw,
      extra := edgeAttrs.extra.filter
        (fun p => p.1 ≠ "id" && p.1 ≠ "source" && p.1 ≠ "target") }
  (nm2, es ++ [edge], ctr + 1)

/-- `edgeStep` with the source's failure channel: the endpoint auto-creation
precedes the `parseAttributes` call, whose throw discards the whole parse.
`edgeStepO_eq` relates it to the total core. -/
def edgeStepO (acc : List (String × RFNode) × List RFEdge × Nat) (m : EdgeM) :
    Option (List (String × RFNode) × List RFEdge × Nat) :=
  let nm0 := acc.1
  let es := acc.2.1
  let ctr := acc.2.2
  let nm1 := if mhas nm0 m.src then nm0 else mset nm0 m.src (autoNode m.src)
  let nm2 := if mhas nm1 m.tgt then nm1 else mset nm1 m.tgt (autoNode m.tgt)
  match parseAttributes m.attrs with
  | none => none
  | some edgeAttrs =>
    let genId := "e" ++ m.src ++ "-" ++ m.tgt ++ "-" ++ toString ctr
    let edge : RFEdge :=
      { id := (mget edgeAttrs.extra "id").getD genId,
        source := (mget edgeAttrs.extra "source").getD m.src,
        target := (mget edgeAttrs.extra "target").getD m.tgt,
        label := edgeAttrs.label,
        style := edgeAttrs.style,
        shapeAttr := edgeAttrs.shapeAttr,
        styleRaw := edgeAttrs.styleRaw,
        extra := edgeAttrs.extra.filter
          (fun p => p.1 ≠ "id" && p.1 ≠ "source" && p.1 ≠ "target") }
    some (nm2, es ++ [edge], ctr + 1)

/-- `if (!edge.type) edge.type = 'floating'` (the `type` property lives in
the pass-through map). -/
def setDefaultType (e : RFEdge) : RFEdge :=
  match mget e.extra "type" with
  | some t => if t = "" then { e with extra := mset e.extra "type" "floating" } else e
  | none => { e with extra := mset e.extra "type" "floating" }

/-- Comment stripping, directedness detection, graph-declaration removal and
graph-attribute cleanup, returning the directed flag and the cleaned text. -/
def cleanedInput (input : String) : Bool × Chars :=
  let s1 := stripLineComments input.toList
  let s2 := trimChars (stripBlockComments s1.length s1)
  let isDirected := containsSub "digraph".toList s2
  let kw := if isDirected then "digraph".toList else "graph".toList
  let s3 := removeGraphDecl kw s2.length s2
  (isDirected, graphAttrCleanup s3)

/-- The node-definition matches of an input. -/
def nodeDefMatches (input : String) : List NodeDefM :=
  let c := (cleanedInput input).2
  scanNodeDefs c.length [] c

/-- The edge matches of an input. -/
def edgeMatches (input : String) : List EdgeM :=
  let p := cleanedInput input
  scanEdges p.1 p.2.length p.2

/-- `parseDotToReactFlow(dotContent)`: the node-definition pass populates the
node map, then the edge pass auto-creates missing endpoints and appends
edges; nodes are returned in map insertion order and edges get the default
`floating` type.  `none` models the `TypeError` thrown from
`parseAttributes` on an empty quoted attribute value (the first throw aborts
both passes and discards all state). -/
def parseDotToReactFlow (input : String) : Option ParseResult :=
  match (nodeDefMatches input).foldlM defStepO [] with
  | none => none
  | some nm0 =>
    match (edgeMatches input).foldlM edgeStepO (nm0, [], 0) with
    | none => none
    | some r =>
      some { nodes := r.1.map (fun p => p.2), edges := r.2.1.map setDefaultType }

/-- The total core of the parse: both passes run with the throw collapsed.
Equal to the successful case of `parseDotToReactFlow`
(see `parseDotToReactFlow_eq`). -/
def parseDotToReactFlowT (input : String) : ParseResult :=
  let nm0 := (nodeDefMatches input).foldl defStep []
  let r := (edgeMatches input).foldl edgeStep (nm0, [], 0)
  { nodes := r.1.map (fun p => p.2), edges := r.2.1.map setDefaultType }

/-- Whether `parseDotToReactFlow` throws: some processed node-definition
match (one not discarded by the same-line-assignment skip) or some edge
match carries an attribute list with an empty quoted value. -/
def parseThrows (input : String) : Bool :=
  (nodeDefMatches input).any (fun d => !d.lineSkip && attrStringBad d.attrs) ||
  (edgeMatches input).any (fun m => attrStringBad m.attrs)

/-! ## Floating-edge geometry resolver (`utils.js` of the floating edges) -/

/-- The node view read by the geometry utilities: `position` is accessed
unconditionally, `width`/`height` and the `measured` dimensions fall back
through JS `||` chains. -/
structure FNode where
  position : Pt
  width : Option ℚ := none
  height : Option ℚ := none
  measuredWidth : Option ℚ := none
  measuredHeight : Option ℚ := none
deriving DecidableEq, Repr

/-- `node.width || node.measured?.width || 150`. -/
def fWidth (n : FNode) : ℚ := numOr n.width (numOr n.measuredWidth 150)

/-- `node.height || node.measured?.height || 40`. -/
def fHeight (n : FNode) : ℚ := numOr n.height (numOr n.measuredHeight 40)

/-- `getNodeCenter`. -/
def getNodeCenter (n : FNode) : Pt :=
  { x := n.position.x + fWidth n / 2, y := n.position.y + fHeight n / 2 }

/-- The four facing sides. -/
inductive Side where
  | left
  | right
  | top
  | bottom
deriving DecidableEq, Repr

/-- Result of `getParams`: resolved side plus the anchor point on that side's
midpoint. -/
structure ParamsResult where
  pos : Side
  x : ℚ
  y : ℚ
deriving DecidableEq, Repr

/-- `getParams(nodeA, nodeB)`: compare the absolute center displacements;
horizontal dominance (strict) selects left/right, otherwise top/bottom; the
anchor is the midpoint of the chosen side of `nodeA`. -/
def getParams (nodeA nodeB : FNode) : ParamsResult :=
  let centerA := getNodeCenter nodeA
  let centerB := getNodeCenter nodeB
  let horizontalDiff := |centerA.x - centerB.x|
  let verticalDiff := |centerA.y - centerB.y|
  let widthA := fWidth nodeA
  let heightA := fHeight nodeA
  if horizontalDiff > verticalDiff then
    if centerA.x > centerB.x then
      { pos := Side.left, x := nodeA.position.x, y := centerA.y }
    else
      { pos := Side.right, x := nodeA.position.x + widthA, y := centerA.y }
  else
    if centerA.y > centerB.y then
      { pos := Side.top, x := centerA.x, y := nodeA.position.y }
    else
      { pos := Side.bottom, x := centerA.x, y := nodeA.position.y + heightA }

/-! ## Layout engine (`layoutAlgorithms.js`)

Transcendental host functions are supplied through `FloatOps`; `Math.random`
is an explicit oracle stream threaded through a call counter. -/

/-- The host `Math` functions the layout strategies consult. -/
structure FloatOps where
  pi : ℚ
  sqrt : ℚ → ℚ
  cos : ℚ → ℚ
  sin : ℚ → ℚ
  atan2 : ℚ → ℚ → ℚ

/-- `DEFAULT_SPACING`. -/
structure Spacing where
  nodeSpacing : ℚ := 80
  levelSpacing : ℚ := 120
  radiusStep : ℚ := 200
  minRadius : ℚ := 250
  gridSpacing : ℚ := 200
  forceRepulsion : ℚ := 3 / 2
deriving DecidableEq, Repr

/-- The `DEFAULT_SPACING` constant. -/
def defaultSpacing : Spacing := {}

/-- `calculateMinSpacing(nodes, baseSpacing)`. -/
def calculateMinSpacing (nodes : List RFNode) (baseSpacing : ℚ) : ℚ :=
  if nodes.length = 0 then baseSpacing
  else
    let maxWidth := nodes.foldl (fun m n => max m (numOr n.width 150)) 150
    max baseSpacing (maxWidth + 30)

/-- The "blue node" sentinel test used by circular, force-directed and radial
layouts (`style?.background === 'lightskyblue' || data?.label === 'Front
Shock'`). -/
def isBlueNode (n : RFNode) : Bool :=
  (match n.style with
   | some st => st.background == some "lightskyblue"
   | none => false) || n.label == "Front Shock"

/-- `circularLayout(nodes, centerX, centerY, spacing)`. -/
def circularLayout (ops : FloatOps) (nodes : List RFNode) (centerX centerY : ℚ)
    (spacing : Spacing) : List RFNode :=
  let blueNode := nodes.find? isBlueNode
  let otherNodes :=
    match blueNode with
    | some b => nodes.filter (fun (n : RFNode) => n.id != b.id)
    | none => nodes
  let nodeCount := otherNodes.length
  let minSpacing := calculateMinSpacing nodes spacing.nodeSpacing
  let radius := max spacing.minRadius (minSpacing * nodeCount / (2 * ops.pi))
  let placeOther := fun (node : RFNode) =>
    let index : Nat := (otherNodes.findIdx? (fun (n : RFNode) => n.id == node.id)).getD 0
    let angle := (2 * ops.pi * (index : ℚ)) / (nodeCount : ℚ)
    { node with position := some ⟨centerX + radius * ops.cos angle,
                                  centerY + radius * ops.sin angle⟩ }
  nodes.map (fun node =>
    match blueNode with
    | some b =>
      if node.id = b.id then { node with position := some ⟨centerX, centerY⟩ }
      else placeOther node
    | none => placeOther node)

/-- `Math.ceil(Math.sqrt(n))` on a natural number. -/
def ceilSqrt (n : Nat) : Nat :=
  if Nat.sqrt n * Nat.sqrt n = n then Nat.sqrt n else Nat.sqrt n + 1

/-- `gridLayout(nodes, columns, spacing)` (a `null`/`0` column override is
falsy). -/
def gridLayout (nodes : List RFNode) (columns : Option Nat) (spacing : Spacing) :
    List RFNode :=
  let nodeCount := nodes.length
  let cols :=
    match columns with
    | some c => if c = 0 then ceilSqrt nodeCount else c
    | none => ceilSqrt nodeCount
  let nodeSpacing := calculateMinSpacing nodes spacing.gridSpacing
  let startX : ℚ := 100
  let startY : ℚ := 100
  nodes.enum.map (fun (p : Nat × RFNode) =>
    let row : Nat := p.1 / cols
    let col : Nat := p.1 % cols
    { p.2 with position := some ⟨startX + (col : ℚ) * nodeSpacing,
                                 startY + (row : ℚ) * nodeSpacing⟩ })

/-! ### Cycle-safe leveling traversals

Both `hierarchicalLayout` and `radialLayout` level the graph with a BFS whose
visited set prevents re-enqueueing: a rediscovered node only has its level
raised in place.  The loops are embedded with explicit fuel together with a
proved stabilization bound, so that termination on every finite graph
(including cyclic ones) is a theorem rather than an assumption.  Note: in the
source, an edge whose `source` is not an initialized node id makes
`adjacency.get(edge.source).push` throw; the embedding restricts the
adjacency build to node ids, i.e. it models the non-throwing executions —
the spec's structural-validity invariant guarantees endpoints exist. -/

/-- Level maps are JS `Map`s from id to level. -/
abbrev LMap := List (String × Nat)

/-- `levels.get(id) || 0`. -/
def levelOfD (lv : LMap) (k : String) : Nat := (mget lv k).getD 0

/-- Processing the neighbor list of a dequeued node with current level
`cur`: unvisited neighbors are marked visited, leveled at `cur + 1` and
collected for enqueueing (in order); visited neighbors only have their level
raised to `cur + 1` when that is larger. -/
def stepNeighbors (cur : Nat) : List String → LMap → List String →
    LMap × List String × List String
  | [], lv, vis => (lv, vis, [])
  | n :: ns, lv, vis =>
    if vis.contains n then
      let ex := (mget lv n).getD 0
      let lv' := if cur + 1 > ex then mset lv n (cur + 1) else lv
      stepNeighbors cur ns lv' vis
    else
      let r := stepNeighbors cur ns (mset lv n (cur + 1)) (vis ++ [n])
      (r.1, r.2.1, n :: r.2.2)

/-- The leveling loop of `hierarchicalLayout`: the current level of a
dequeued node is read from the level map. -/
def hierBfs (adj : String → List String) : Nat → LMap → List String →
    List String → LMap
  | 0, lv, _, _ => lv
  | _ + 1, lv, _, [] => lv
  | fuel + 1, lv, vis, c :: rest =>
    let cur := (mget lv c).getD 0
    let r := stepNeighbors cur (adj c) lv vis
    hierBfs adj fuel r.1 r.2.1 (rest ++ r.2.2)

/-- The leveling loop of `radialLayout`: the level travels with the queue
entry. -/
def radialBfs (adj : String → List String) : Nat → LMap → List String →
    List (String × Nat) → LMap
  | 0, lv, _, _ => lv
  | _ + 1, lv, _, [] => lv
  | fuel + 1, lv, vis, (c, level) :: rest =>
    let r := stepNeighbors level (adj c) lv vis
    radialBfs adj fuel r.1 r.2.1 (rest ++ r.2.2.map (fun a => (a, level + 1)))

/-- The ids of a node list. -/
def nodeIds (nodes : List RFNode) : List String := nodes.map (fun n => n.id)

/-- Forward adjacency (`source -> target`, edge order), defined for
initialized node ids. -/
def hierAdj (nodes : List RFNode) (edges : List RFEdge) : String → List String :=
  fun c =>
    if (nodeIds nodes).contains c then
      (edges.filter (fun e => e.source == c)).map (fun e => e.target)
    else []

/-- Every id a leveling traversal can ever visit: the node ids plus all edge
targets. -/
def levelUniverse (nodes : List RFNode) (edges : List RFEdge) : List String :=
  (nodeIds nodes ++ edges.map (fun e => e.target)).dedup

/-- Root nodes (zero in-degree), with the arbitrary-node fallback for fully
cyclic graphs (`roots.push(nodes[0])`; on an empty node list the source
pushes `undefined`, which levels nothing, modelled as pushing nothing). -/
def hierRoots (nodes : List RFNode) (edges : List RFEdge) : List RFNode :=
  let rs := nodes.filter (fun n => edges.countP (fun e => e.target == n.id) = 0)
  if rs.isEmpty then nodes.take 1 else rs

/-- Fuel sufficient for the hierarchical leveling loop to drain its queue. -/
def hierBound (nodes : List RFNode) (edges : List RFEdge) : Nat :=
  (levelUniverse nodes edges).length + nodes.length

/-- Initial level map: every root at level 0. -/
def hierInitLevels (nodes : List RFNode) (edges : List RFEdge) : LMap :=
  (hierRoots nodes edges).foldl (fun lv r => mset lv r.id 0) []

/-- Initial visited set: the roots. -/
def hierInitVisited (nodes : List RFNode) (edges : List RFEdge) : List String :=
  (hierRoots nodes edges).foldl (fun v r => sadd v r.id) []

/-- Initial queue: the roots, in order. -/
def hierInitQueue (nodes : List RFNode) (edges : List RFEdge) : List String :=
  (hierRoots nodes edges).map (fun r => r.id)

/-- The level assignment computed by `hierarchicalLayout`. -/
def hierarchicalLevels (nodes : List RFNode) (edges : List RFEdge) : LMap :=
  hierBfs (hierAdj nodes edges) (hierBound nodes edges)
    (hierInitLevels nodes edges) (hierInitVisited nodes edges)
    (hierInitQueue nodes edges)

/-! ### Hierarchical placement -/

/-- Position maps. -/
abbrev PMap := List (String × Pt)

/-- `wouldOverlap(x, y, nodeId, level)`: does the candidate x collide with an
already placed node of the same level (the `y` argument is unused in the
source as well). -/
def wouldOverlap (positions : PMap) (levels : LMap)
    (nodeMap : List (String × RFNode)) (x y : ℚ) (nodeId : String)
    (level : Nat) : Bool :=
  let nodeWidth := numOr ((mget nodeMap nodeId).bind (fun n => n.width)) 150
  positions.any (fun p =>
    if p.1 == nodeId then false
    else if levelOfD levels p.1 ≠ level then false
    else
      let existingWidth := numOr ((mget nodeMap p.1).bind (fun n => n.width)) 150
      |x - p.2.x| < (nodeWidth + existingWidth) / 2 + 10)

/-- The bounded rightward-shift loop (`attempts < 10`, half-spacing steps). -/
def adjustChildX (positions : PMap) (levels : LMap)
    (nodeMap : List (String × RFNode)) (nodeSpacing y : ℚ) (childId : String)
    (childLevel : Nat) : Nat → ℚ → ℚ
  | 0, x => x
  | att + 1, x =>
    if wouldOverlap positions levels nodeMap x y childId childLevel then
      adjustChildX positions levels nodeMap nodeSpacing y childId childLevel att
        (x + nodeSpacing / 2)
    else x

/-- `positionChildren(parentId)`: place each not-yet-positioned child centered
under the parent, shifting right on same-level collisions, then recurse into
it.  Fuel bounds the recursion depth; each recursive call is preceded by
inserting a fresh key into `positions` and keys range over the id universe,
so depth (hence the fuel passed by `hierarchicalLayout`) never runs out. -/
def positionChildren (children : String → List String) (levels : LMap)
    (nodeMap : List (String × RFNode)) (nodeSpacing levelSpacing startY : ℚ) :
    Nat → String → PMap → PMap
  | 0, _, positions => positions
  | fuel + 1, parentId, positions =>
    let cs := children parentId
    if cs.isEmpty then positions
    else
      match mget positions parentId with
      | none => positions
      | some parentPos =>
        let parentLevel := levelOfD levels parentId
        let childLevel := parentLevel + 1
        let totalWidth := ((cs.length : ℚ) - 1) * nodeSpacing
        let startX := parentPos.x - totalWidth / 2
        cs.enum.foldl
          (fun positions p =>
            if mhas positions p.2 then positions
            else
              let y := startY + (childLevel : ℚ) * levelSpacing
              let childX := adjustChildX positions levels nodeMap nodeSpacing y
                p.2 childLevel 10 (startX + (p.1 : ℚ) * nodeSpacing)
              positionChildren children levels nodeMap nodeSpacing levelSpacing
                startY fuel p.2 (mset positions p.2 ⟨childX, y⟩))
          positions

/-- `hierarchicalLayout(nodes, edges, direction, spacing)` (the `direction`
parameter is accepted and unused, as in the source). -/
def hierarchicalLayout (nodes : List RFNode) (edges : List RFEdge)
    (direction : String) (spacing : Spacing) : List RFNode :=
  let _ := direction
  let adj := hierAdj nodes edges
  let levels := hierarchicalLevels nodes edges
  let rootList := hierRoots nodes edges
  let nodeMap := nodes.foldl (fun m n => mset m n.id n) []
  let nodeSpacing := calculateMinSpacing nodes spacing.nodeSpacing
  let levelSpacing := spacing.levelSpacing
  let startY : ℚ := 100
  let centerX : ℚ := 400
  let positions0 : PMap :=
    match rootList with
    | [r] => mset [] r.id ⟨centerX, startY⟩
    | _ =>
      let totalWidth := ((rootList.length : ℚ) - 1) * nodeSpacing
      let startX := centerX - totalWidth / 2
      rootList.enum.foldl
        (fun ps p => mset ps p.2.id ⟨startX + (p.1 : ℚ) * nodeSpacing, startY⟩) []
  let fuel := (levelUniverse nodes edges).length + 1
  let positions := rootList.foldl
    (fun ps r => positionChildren adj levels nodeMap nodeSpacing levelSpacing
      startY fuel r.id ps) positions0
  nodes.map (fun node =>
    match mget positions node.id with
    | some pos => { node with position := some pos }
    | none =>
      { node with position := some ⟨centerX,
          startY + (levelOfD levels node.id : ℚ) * levelSpacing⟩ })

/-! ### Force-directed layout -/

/-- One simulation iteration: reset velocities, pairwise repulsion, edge
attraction, then the damped clamped positional update (the pinned node is
forced back to the center). -/
def forceStep (ops : FloatOps) (edges : List RFEdge)
    (repulsionStrength attractionStrength centerX centerY : ℚ)
    (nm : List (String × RFNode)) : List (String × RFNode) :=
  let l0 := nm.map (fun p => (p.1, { p.2 with vx := some 0, vy := some 0 }))
  let n := l0.length
  let pairs := (List.range n).flatMap
    (fun i => (List.range n).filterMap (fun j => if i < j then some (i, j) else none))
  let dummy : String × RFNode := ("", { id := "" })
  let l1 := pairs.foldl
    (fun (l : List (String × RFNode)) (pr : Nat × Nat) =>
      let a := (l.get? pr.1).getD dummy
      let b := (l.get? pr.2).getD dummy
      let dx := (b.2.x.getD 0) - (a.2.x.getD 0)
      let dy := (b.2.y.getD 0) - (a.2.y.getD 0)
      let d0 := ops.sqrt (dx * dx + dy * dy)
      let distance := if d0 = 0 then 1 else d0
      let force := repulsionStrength / (distance * distance)
      let a2 := { a.2 with vx := some ((a.2.vx.getD 0) - dx / distance * force),
                           vy := some ((a.2.vy.getD 0) - dy / distance * force) }
      let b2 := { b.2 with vx := some ((b.2.vx.getD 0) + dx / distance * force),
                           vy := some ((b.2.vy.getD 0) + dy / distance * force) }
      (l.set pr.1 (a.1, a2)).set pr.2 (b.1, b2))
    l0
  let l2 := edges.foldl
    (fun (l : List (String × RFNode)) (e : RFEdge) =>
      match mget l e.source, mget l e.target with
      | some s, some t =>
        let dx := (t.x.getD 0) - (s.x.getD 0)
        let dy := (t.y.getD 0) - (s.y.getD 0)
        let d0 := ops.sqrt (dx * dx + dy * dy)
        let distance := if d0 = 0 then 1 else d0
        let force := distance * attractionStrength
        let lA := mset l e.source
          { s with vx := some ((s.vx.getD 0) + dx / distance * force),
                   vy := some ((s.vy.getD 0) + dy / distance * force) }
        match mget lA e.target with
        | some t2 =>
          mset lA e.target
            { t2 with vx := some ((t2.vx.getD 0) - dx / distance * force),
                      vy := some ((t2.vy.getD 0) - dy / distance * force) }
        | none => lA
      | _, _ => l)
    l1
  l2.map (fun p =>
    let node := p.2
    if node.fixed = some true then
      (p.1, { node with x := some centerX, y := some centerY })
    else
      let nx := (node.x.getD 0) + (node.vx.getD 0) * (9 / 10)
      let ny := (node.y.getD 0) + (node.vy.getD 0) * (9 / 10)
      (p.1, { node with x := some (max 50 (min 750 nx)),
                        y := some (max 50 (min 550 ny)) }))

/-- One working-map entry of the initialization fold: the blue node is pinned
at the center, every other node seeds its coordinates from its stored
position when that coordinate is truthy (nonzero) and otherwise consumes the
random oracle. -/
def forceInitStep (rng : Nat → ℚ) (blueNode : Option RFNode)
    (acc : List (String × RFNode) × Nat) (node : RFNode) :
    List (String × RFNode) × Nat :=
  let nm := acc.1
  let ctr := acc.2
  let centerX : ℚ := 400
  let centerY : ℚ := 400
  let isPinned :=
    match blueNode with
    | some b => node.id == b.id
    | none => false
  if isPinned then
    (mset nm node.id
      { node with x := some centerX, y := some centerY,
                  vx := some 0, vy := some 0, fixed := some true }, ctr)
  else
    let xr :=
      match node.position with
      | some p => if p.x = 0 then (rng ctr * 800, ctr + 1) else (p.x, ctr)
      | none => (rng ctr * 800, ctr + 1)
    let yr :=
      match node.position with
      | some p => if p.y = 0 then (rng xr.2 * 600, xr.2 + 1) else (p.y, xr.2)
      | none => (rng xr.2 * 600, xr.2 + 1)
    (mset nm node.id
      { node with x := some xr.1, y := some yr.1,
                  vx := some 0, vy := some 0, fixed := some false }, yr.2)

/-- `forceDirectedLayout(nodes, edges, iterations, spacing)`.  `rng` models
`Math.random()`: an oracle stream consumed one value per call; calls happen
exactly where the source evaluates `node.position?.x || Math.random() * 800`
(a stored coordinate that is absent or `0` is falsy). -/
def forceDirectedLayout (ops : FloatOps) (rng : Nat → ℚ) (nodes : List RFNode)
    (edges : List RFEdge) (iterations : Nat) (spacing : Spacing) :
    List RFNode :=
  let blueNode := nodes.find? isBlueNode
  let centerX : ℚ := 400
  let centerY : ℚ := 400
  let _ := centerX
  let _ := centerY
  let init := nodes.foldl (forceInitStep rng blueNode) ([], 0)
  let minSpacing := calculateMinSpacing nodes spacing.nodeSpacing
  let k := minSpacing * spacing.forceRepulsion
  let repulsionStrength := k * k
  let attractionStrength : ℚ := 1 / 10
  let final := (List.range iterations).foldl
    (fun l _ => forceStep ops edges repulsionStrength attractionStrength
      centerX centerY l) init.1
  final.map (fun p =>
    { p.2 with position := some ⟨p.2.x.getD 0, p.2.y.getD 0⟩ })

/-! ### Radial layout -/

/-- Stable insertion sort: each element is inserted after every earlier
element the comparator does not place strictly after it — the unique stable
order of JS `Array.prototype.sort` under a consistent comparator. -/
def insertStable {α : Type} (le : α → α → Bool) (x : α) : List α → List α
  | [] => [x]
  | y :: ys => if le y x then y :: insertStable le x ys else x :: y :: ys

/-- Stable sort by repeated insertion (left to right). -/
def stableSort {α : Type} (le : α → α → Bool) (l : List α) : List α :=
  l.foldl (fun acc x => insertStable le x acc) []

/-- The degree map built for the most-connections center fallback (edge
endpoints that are not nodes are added to the map too, as in the source). -/
def degreeEntries (nodes : List RFNode) (edges : List RFEdge) :
    List (String × Nat) :=
  let c0 := nodes.foldl (fun m n => mset m n.id 0) []
  edges.foldl
    (fun m e =>
      let m1 := mset m e.source ((mget m e.source).getD 0 + 1)
      mset m1 e.target ((mget m1 e.target).getD 0 + 1))
    c0

/-- Center selection of `radialLayout`: a truthy caller-supplied id, else the
blue node, else the stably-sorted most-connected entry, else `nodes[0]`. -/
def radialCenter (nodes : List RFNode) (edges : List RFEdge)
    (centerNodeId : Option String) : Option String :=
  let given :=
    match centerNodeId with
    | some c => if c = "" then none else some c
    | none => none
  match given with
  | some c => some c
  | none =>
    match nodes.find? isBlueNode with
    | some blue => some blue.id
    | none =>
      let sorted := stableSort (fun (a b : String × Nat) => b.2 ≤ a.2)
        (degreeEntries nodes edges)
      let cand :=
        match sorted.head? with
        | some p => if p.1 = "" then none else some p.1
        | none => none
      match cand with
      | some c => some c
      | none => nodes.head?.map (fun n => n.id)

/-- Fuel sufficient for the radial leveling loop to drain its queue. -/
def radialBound (nodes : List RFNode) (edges : List RFEdge) : Nat :=
  (levelUniverse nodes edges).length + 1

/-- The level assignment computed by `radialLayout` (empty when there is no
center, which happens only on an empty node list — the source then levels the
`undefined` id, observably the same for every real id). -/
def radialLevels (nodes : List RFNode) (edges : List RFEdge)
    (centerNodeId : Option String) : LMap :=
  match radialCenter nodes edges centerNodeId with
  | none => []
  | some center =>
    radialBfs (hierAdj nodes edges) (radialBound nodes edges)
      [(center, 0)] [center] [(center, 0)]

/-- Appending one node to its level's group. -/
def groupStep (lv : LMap) (g : List (Nat × List RFNode)) (n : RFNode) :
    List (Nat × List RFNode) :=
  let level := levelOfD lv n.id
  match mget g level with
  | some l => mset g level (l ++ [n])
  | none => mset g level [n]

/-- Nodes grouped by level, levels in first-seen order, nodes in input
order. -/
def radialLevelGroups (nodes : List RFNode) (lv : LMap) :
    List (Nat × List RFNode) :=
  nodes.foldl (groupStep lv) []

/-- Parent lists: `source` is a parent of `target` when the target sits one
level deeper. -/
def radialParents (edges : List RFEdge) (lv : LMap) :
    List (String × List String) :=
  edges.foldl
    (fun pm e =>
      if levelOfD lv e.target = levelOfD lv e.source + 1 then
        match mget pm e.target with
        | some l => mset pm e.target (l ++ [e.source])
        | none => mset pm e.target [e.source]
      else pm)
    []

/-- The evenly spaced slot angles `2*pi*i/n`. -/
def slotAngle (ops : FloatOps) (n : Nat) (i : Nat) : ℚ :=
  (2 * ops.pi * (i : ℚ)) / (n : ℚ)

/-- The barycenter sort order: both barycenters present compares the values,
a node with a barycenter sorts before one without, two without keep their
order. -/
def radialLe (barys : List (String × ℚ)) (a b : RFNode) : Bool :=
  match mget barys a.id, mget barys b.id with
  | some x, some y => x ≤ y
  | some _, none => true
  | none, some _ => false
  | none, none => true

/-- Processing one level of the radial angle assignment: circular-mean
barycenters from already-angled parents, stable sort, then evenly spaced
slots in sorted order. -/
def radialProcessLevel (ops : FloatOps) (groups : List (Nat × List RFNode))
    (parents : List (String × List String)) (angles : List (String × ℚ))
    (level : Nat) : List (String × ℚ) :=
  let levelNodes := (mget groups level).getD []
  if levelNodes.isEmpty then angles
  else
    let barys := levelNodes.foldl
      (fun bm node =>
        let nodeParents := (mget parents node.id).getD []
        if nodeParents.isEmpty then bm
        else
          let parentAngles := nodeParents.filterMap (fun pid => mget angles pid)
          if parentAngles.isEmpty then bm
          else
            let len : ℚ := parentAngles.length
            let sumSin := parentAngles.foldl (fun s a => s + ops.sin a) 0
            let sumCos := parentAngles.foldl (fun s a => s + ops.cos a) 0
            let meanAngle := ops.atan2 (sumSin / len) (sumCos / len)
            let normalized :=
              if meanAngle < 0 then meanAngle + 2 * ops.pi else meanAngle
            mset bm node.id normalized)
      []
    let sortedNodes := stableSort (radialLe barys) levelNodes
    sortedNodes.enum.foldl
      (fun am p => mset am p.2.id (slotAngle ops levelNodes.length p.1)) angles

/-- Largest assigned level (`Math.max(...levels.values())`, with the empty
case coinciding with a vacuous loop). -/
def lmapMax (lv : LMap) : Nat := lv.foldl (fun m p => max m p.2) 0

/-- The angle map of `radialLayout`: center at angle 0, then levels 1..max
processed outward. -/
def radialAngles (ops : FloatOps) (nodes : List RFNode) (edges : List RFEdge)
    (centerNodeId : Option String) : List (String × ℚ) :=
  let lv := radialLevels nodes edges centerNodeId
  let groups := radialLevelGroups nodes lv
  let parents := radialParents edges lv
  let init : List (String × ℚ) :=
    match radialCenter nodes edges centerNodeId with
    | some c => [(c, 0)]
    | none => []
  (List.range' 1 (lmapMax lv)).foldl (radialProcessLevel ops groups parents) init

/-- Per-node radius: `baseRadius + level*radiusStep`, enlarged so the level's
node count fits around the circumference. -/
def radialRadius (ops : FloatOps) (minSpacing radiusStep : ℚ)
    (nodesInLevel level : Nat) : ℚ :=
  let baseRadius := minSpacing
  let radius := baseRadius + (level : ℚ) * radiusStep
  if 0 < level ∧ 0 < nodesInLevel then
    max radius ((nodesInLevel : ℚ) * minSpacing / (2 * ops.pi))
  else radius

/-- `radialLayout(nodes, edges, centerNodeId, spacing)`. -/
def radialLayout (ops : FloatOps) (nodes : List RFNode) (edges : List RFEdge)
    (centerNodeId : Option String) (spacing : Spacing) : List RFNode :=
  let lv := radialLevels nodes edges centerNodeId
  let groups := radialLevelGroups nodes lv
  let angles := radialAngles ops nodes edges centerNodeId
  let centerX : ℚ := 400
  let centerY : ℚ := 400
  let minSpacing := calculateMinSpacing nodes spacing.nodeSpacing
  nodes.map (fun node =>
    let level := levelOfD lv node.id
    let nodesInLevel := ((mget groups level).getD []).length
    let radius := radialRadius ops minSpacing spacing.radiusStep nodesInLevel level
    let angle := (mget angles node.id).getD 0
    { node with position := some ⟨centerX +
        (if level = 0 then 0 else radius * ops.cos angle), centerY +
        (if level = 0 then 0 else radius * ops.sin angle)⟩ })

/-- `applyLayout(layoutName, nodes, edges, spacing)`: dispatch by lowercased
name with legacy aliases, defaulting to circular. -/
def applyLayout (ops : FloatOps) (rng : Nat → ℚ) (layoutName : Option String)
    (nodes : List RFNode) (edges : List RFEdge) (spacing : Spacing) :
    List RFNode :=
  let layoutv := strOr (layoutName.map lowerStr) "circular"
  if layoutv = "hierarchical" ∨ layoutv = "dot" then
    hierarchicalLayout nodes edges "TB" spacing
  else if layoutv = "force" ∨ layoutv = "fdp" ∨ layoutv = "neato" then
    forceDirectedLayout ops rng nodes edges 50 spacing
  else if layoutv = "radial" ∨ layoutv = "twopi" then
    radialLayout ops nodes edges none spacing
  else if layoutv = "grid" then gridLayout nodes none spacing
  else circularLayout ops nodes 400 400 spacing

/-! ## Concrete fixtures used by witnesses and counterexamples -/

/-- A parser-shaped node (default geometry, origin position). -/
def hNode (s : String) : RFNode :=
  { id := s, label := s, position := some ⟨0, 0⟩,
    width := some 150, height := some 40 }

/-- A plain edge. -/
def hEdge (s t : String) : RFEdge :=
  { id := "e" ++ s ++ "-" ++ t, source := s, target := t }

/-- An interpretation of the host float functions that satisfies the ideal
identity `cos^2 + sin^2 = 1` exactly over the rationals. -/
def opsW : FloatOps :=
  { pi := 3, sqrt := fun q => q, cos := fun _ => 1, sin := fun _ => 0,
    atan2 := fun _ _ => 0 }

/-- The diamond-with-tail graph `R->B, R->A, A->B, B->C`: the BFS sets
`level(C) = 2` while `C` is on the queue, then raises `level(B)` to 2 via the
longer path `R->A->B` without re-enqueueing `B`, so the raise never reaches
`C`. -/
def cexHNodes : List RFNode := [hNode "R", hNode "A", hNode "B", hNode "C"]

/-- Edges of the diamond-with-tail graph. -/
def cexHEdges : List RFEdge :=
  [hEdge "R" "B", hEdge "R" "A", hEdge "A" "B", hEdge "B" "C"]

/-- The 3-cycle of spec Scenario D. -/
def cycNodes : List RFNode := [hNode "A", hNode "B", hNode "C"]

/-- Edges of the 3-cycle `A->B->C->A`. -/
def cycEdges : List RFEdge := [hEdge "A" "B", hEdge "B" "C", hEdge "C" "A"]

/-- The two vertically aligned 150 by 40 rectangles of spec Scenario C. -/
def geomRectA : FNode := { position := ⟨0, 0⟩, width := some 150, height := some 40 }

/-- The lower rectangle of Scenario C, at `(0, 200)`. -/
def geomRectB : FNode := { position := ⟨0, 200⟩, width := some 150, height := some 40 }

/-! ## Claims -/

/-- C9: the geometry resolver picks each endpoint's facing side by comparing
absolute center displacements — left/right exactly when `|dx| > |dy|` (the
side facing the other center), otherwise top/bottom — and the two 150 by 40
rectangles at `(0,0)` and `(0,200)` resolve to bottom/top anchors at the
horizontal midpoints of those sides, not left/right. -/
theorem claim9_side_resolution :
    (∀ a b : FNode,
      (getParams a b).pos =
        (if |(getNodeCenter a).x - (getNodeCenter b).x| >
            |(getNodeCenter a).y - (getNodeCenter b).y| then
          (if (getNodeCenter a).x > (getNodeCenter b).x then Side.left else Side.right)
         else
          (if (getNodeCenter a).y > (getNodeCenter b).y then Side.top else Side.bottom))) ∧
    getParams geomRectA geomRectB = { pos := Side.bottom, x := 75, y := 40 } ∧
    getParams geomRectB geomRectA = { pos := Side.top, x := 75, y := 200 } := by
  refine ⟨?_, ?_, ?_⟩
  · intro a b
    simp only [getParams]
    split_ifs <;> rfl
  · simp [getParams, getNodeCenter, fWidth, fHeight, numOr, geomRectA, geomRectB]
    norm_num
  · simp [getParams, getNodeCenter, fWidth, fHeight, numOr, geomRectA, geomRectB]
    norm_num

/-! ### The parser's failure channel

`parseDotToReactFlow` throws (returns `none`) exactly when a processed
attribute list contains an empty quoted value; on every other input it
returns the value of the total core. -/

theorem foldl_applyAttrO_none (ps : List AttrPairM) :
    ps.foldl applyAttrO none = none := by
  induction ps with
  | nil => rfl
  | cons p t ih => exact ih

theorem foldl_applyAttrO_eq (ps : List AttrPairM) :
    ∀ (a : Attrs),
      ps.foldl applyAttrO (some a) =
        if ps.any (fun p => p.emptyQuoted) then none
        else some (ps.foldl (fun a p => applyAttr a p.key p.val) a) := by
  induction ps with
  | nil => intro a; rfl
  | cons p t ih =>
    intro a
    simp only [List.foldl_cons, List.any_cons]
    by_cases hb : p.emptyQuoted = true
    · rw [show applyAttrO (some a) p = none from by simp [applyAttrO, hb],
        foldl_applyAttrO_none, if_pos (by simp [hb])]
    · have hb' : p.emptyQuoted = false := Bool.eq_false_iff.mpr hb
      rw [show applyAttrO (some a) p = some (applyAttr a p.key p.val) from by
          simp [applyAttrO, hb'],
        ih (applyAttr a p.key p.val)]
      by_cases ht : (t.any fun p => p.emptyQuoted) = true
      · rw [if_pos ht, if_pos (by simp [ht])]
      · rw [if_neg ht, if_neg (by simp [hb', Bool.eq_false_iff.mpr ht])]

/-- `parseAttributes` is its total core guarded by the throw condition. -/
theorem parseAttributes_eq (s : String) :
    parseAttributes s =
      if attrStringBad s then none else some (parseAttributesT s) := by
  by_cases hs : s = ""
  · subst hs
    rw [if_neg (show ¬(attrStringBad "" = true) from by decide)]
    rfl
  · unfold parseAttributes parseAttributesT attrStringBad
    rw [if_neg hs, if_neg hs]
    exact foldl_applyAttrO_eq _ {}

/-- One node-definition step with the failure channel equals the total step
guarded by its throw condition (`parseAttributes` runs only when the match
survives the same-line-assignment skip; a bad attribute string is nonempty,
so the keyword skip and the has-check cannot avoid it). -/
theorem defStepO_eq (m : List (String × RFNode)) (d : NodeDefM) :
    defStepO m d =
      if !d.lineSkip && attrStringBad d.attrs then none
      else some (defStep m d) := by
  by_cases hb : (!d.lineSkip && attrStringBad d.attrs) = true
  · rw [if_pos hb]
    cases hL : d.lineSkip with
    | true =>
      rw [hL] at hb
      simp at hb
    | false =>
      have hbad : attrStringBad d.attrs = true := by
        rw [hL] at hb
        simpa using hb
      have hne : d.attrs ≠ "" := by
        intro hc
        rw [hc] at hbad
        exact absurd hbad (by decide)
      unfold defStepO
      rw [if_neg (show ¬(d.lineSkip = true) from by rw [hL]; simp),
        if_neg (show ¬((graphKeywords.contains (lowerStr d.id) &&
          d.attrs = "") = true) from by simp [hne]),
        if_pos (show (!(mhas m d.id) || d.attrs ≠ "") = true from by
          simp [hne]),
        parseAttributes_eq, if_pos hbad]
  · rw [if_neg hb]
    unfold defStepO defStep
    by_cases h1 : d.lineSkip = true
    · rw [if_pos h1, if_pos h1]
    · rw [if_neg h1, if_neg h1]
      have hbad : attrStringBad d.attrs = false := by
        cases hB : attrStringBad d.attrs with
        | false => rfl
        | true =>
          exfalso
          apply hb
          rw [hB]
          simp [Bool.eq_false_iff.mpr h1]
      by_cases h2 : (graphKeywords.contains (lowerStr d.id) && d.attrs = "") = true
      · rw [if_pos h2, if_pos h2]
      · rw [if_neg h2, if_neg h2]
        by_cases h3 : (!(mhas m d.id) || d.attrs ≠ "") = true
        · rw [if_pos h3, if_pos h3, parseAttributes_eq,
            if_neg (show ¬(attrStringBad d.attrs = true) from by simp [hbad])]
          cases mget m d.id <;> rfl
        · rw [if_neg h3, if_neg h3]

/-- One edge step with the failure channel equals the total step guarded by
its throw condition. -/
theorem edgeStepO_eq (acc : List (String × RFNode) × List RFEdge × Nat)
    (m : EdgeM) :
    edgeStepO acc m =
      if attrStringBad m.attrs then none else some (edgeStep acc m) := by
  unfold edgeStepO edgeStep
  dsimp only
  rw [parseAttributes_eq]
  by_cases hbad : attrStringBad m.attrs = true
  · rw [if_pos hbad, if_pos hbad]
  · rw [if_neg hbad, if_neg hbad]

theorem foldlM_defStepO_eq (ds : List NodeDefM) :
    ∀ (m : List (String × RFNode)),
      ds.foldlM defStepO m =
        if ds.any (fun d => !d.lineSkip && attrStringBad d.attrs) then none
        else some (ds.foldl defStep m) := by
  induction ds with
  | nil => intro m; rfl
  | cons d t ih =>
    intro m
    rw [List.foldlM_cons, defStepO_eq]
    by_cases hb : (!d.lineSkip && attrStringBad d.attrs) = true
    · rw [if_pos hb, if_pos (by simp [List.any_cons, hb])]
      rfl
    · rw [if_neg hb]
      show t.foldlM defStepO (defStep m d) =
        if (d :: t).any (fun x => !x.lineSkip && attrStringBad x.attrs) then none
        else some ((d :: t).foldl defStep m)
      rw [ih (defStep m d), List.foldl_cons,
        show ((d :: t).any fun x => !x.lineSkip && attrStringBad x.attrs) =
          (t.any fun x => !x.lineSkip && attrStringBad x.attrs) from by
          simp [List.any_cons, Bool.eq_false_iff.mpr hb]]

theorem foldlM_edgeStepO_eq (ms : List EdgeM) :
    ∀ (acc : List (String × RFNode) × List RFEdge × Nat),
      ms.foldlM edgeStepO acc =
        if ms.any (fun m => attrStringBad m.attrs) then none
        else some (ms.foldl edgeStep acc) := by
  induction ms with
  | nil => intro acc; rfl
  | cons m t ih =>
    intro acc
    rw [List.foldlM_cons, edgeStepO_eq]
    by_cases hb : attrStringBad m.attrs = true
    · rw [if_pos hb, if_pos (by simp [List.any_cons, hb])]
      rfl
    · rw [if_neg hb]
      show t.foldlM edgeStepO (edgeStep acc m) =
        if (m :: t).any (fun x => attrStringBad x.attrs) then none
        else some ((m :: t).foldl edgeStep acc)
      rw [ih (edgeStep acc m), List.foldl_cons,
        show ((m :: t).any fun x => attrStringBad x.attrs) =
          (t.any fun x => attrStringBad x.attrs) from by
          simp [List.any_cons, Bool.eq_false_iff.mpr hb]]

/-- The parse is its total core guarded by the throw condition. -/
theorem parseDotToReactFlow_eq (input : String) :
    parseDotToReactFlow input =
      if parseThrows input then none
      else some (parseDotToReactFlowT input) := by
  unfold parseDotToReactFlow parseDotToReactFlowT parseThrows
  rw [foldlM_defStepO_eq]
  by_cases h1 : ((nodeDefMatches input).any
      fun d => !d.lineSkip && attrStringBad d.attrs) = true
  · rw [if_pos h1, if_pos (by simp [h1])]
  · rw [if_neg h1]
    dsimp only
    rw [foldlM_edgeStepO_eq]
    by_cases h2 : ((edgeMatches input).any fun m => attrStringBad m.attrs) = true
    · rw [if_pos h2, if_pos (by simp [h2])]
    · rw [if_neg h2,
        if_neg (by simp [Bool.eq_false_iff.mpr h1, Bool.eq_false_iff.mpr h2])]

/-- C3 counterexample: the claim asserts that a structurally empty input is
reported as a failure to the caller; instead the parser returns the ordinary
empty result there.  The parser is also not failure-free: on an attribute
list with an empty quoted value it raises a hard failure — a `TypeError`
from `(match[2] || match[4]).trim()`, modeled as `none`. -/
theorem claim3_empty_input_normal_result_cex :
    parseDotToReactFlow "" = some { nodes := [], edges := [] } ∧
    parseDotToReactFlow "digraph G \x7b A -> B [label=\"\"]; \x7d" = none :=
  ⟨by decide, by decide⟩

/-- C3 amended: the parser returns `none` (a thrown `TypeError`) exactly on
inputs where a processed attribute list contains an empty quoted value;
elsewhere it is best-effort — malformed fragments (a stray `???` token, an
attribute list without `=`) are skipped while the well-formed parts are
kept — and structurally empty or entirely unreadable input yields the normal
empty result rather than a reported failure. -/
theorem claim3_best_effort :
    (∀ input : String,
      parseDotToReactFlow input = none ↔ parseThrows input = true) ∧
    parseDotToReactFlow "" = some { nodes := [], edges := [] } ∧
    parseDotToReactFlow "@@@ ??? @@@" = some { nodes := [], edges := [] } ∧
    (parseDotToReactFlow "digraph G \x7b ??? ; A -> B; \x7d").map
      (fun r => r.nodes.map (fun n => n.id)) = some ["B", "A"] ∧
    (parseDotToReactFlow "digraph G \x7b ??? ; A -> B; \x7d").map
      (fun r => r.edges.map (fun e => (e.source, e.target))) =
      some [("A", "B")] ∧
    (parseDotToReactFlow "digraph G \x7b X [color red]; A -> B; \x7d").map
      (fun r => r.nodes.map (fun n => (n.id, n.label))) =
      some [("X", "X"), ("B", "B"), ("A", "A")] ∧
    parseThrows "digraph G \x7b A -> B [label=\"x\"]; \x7d" = false := by
  refine ⟨?_, by decide, by decide, by decide, by decide, by decide, by decide⟩
  intro input
  rw [parseDotToReactFlow_eq]
  by_cases h : parseThrows input = true
  · rw [if_pos h]
    simp [h]
  · rw [if_neg h]
    simp [h]

/-- C10: an edge statement ending in a bracketed attribute list and a
semicolon also matches the node-definition scan at its target identifier, so
the target node is created with the edge's attribute values: in
`digraph G { A -> B [label="go"]; }` node `B` gets label `go` (not the
default `B`), and with `color=red` present its style stroke becomes `red`;
the edge itself still carries the same attributes. -/
theorem claim10_edge_attrs_target :
    (parseDotToReactFlow "digraph G \x7b A -> B [label=\"go\"]; \x7d").map
      (fun r => r.nodes.map (fun n => (n.id, n.label))) =
      some [("B", "go"), ("A", "A")] ∧
    (parseDotToReactFlow
        "digraph G \x7b A -> B [label=\"go\", color=red]; \x7d").map
      (fun r => r.nodes.map (fun n => (n.id, n.label, n.style))) =
      some [("B", "go", some { stroke := some "red" }), ("A", "A", none)] ∧
    (parseDotToReactFlow "digraph G \x7b A -> B [label=\"go\"]; \x7d").map
      (fun r => r.edges.map (fun e => (e.source, e.target, e.label))) =
      some [("A", "B", some "go")] :=
  ⟨by decide, by decide, by decide⟩

/-- C6 counterexample: in `digraph G { A -> B; C; }` the first references
appear in the order `A`, `B`, `C` (`A` is referenced first, as an edge
source), but the parser's node-definition pass runs before its edge pass, so
the returned order is `B`, `C`, `A` — not first-reference order. -/
theorem claim6_order_cex :
    (parseDotToReactFlow "digraph G \x7b A -> B; C; \x7d").map
      (fun r => r.nodes.map (fun n => n.id)) = some ["B", "C", "A"] ∧
    indexOfSub "A".toList "digraph G \x7b A -> B; C; \x7d".toList <
      indexOfSub "B".toList "digraph G \x7b A -> B; C; \x7d".toList ∧
    indexOfSub "B".toList "digraph G \x7b A -> B; C; \x7d".toList <
      indexOfSub "C".toList "digraph G \x7b A -> B; C; \x7d".toList :=
  ⟨by decide, by decide, by decide⟩

/-- C7 counterexample: an explicit `source=` key in an edge's attribute list
is spread over the edge object after the endpoint fields, so
`digraph G { A -> B [source=Q]; }` produces an edge whose `source` is `Q`
while the node collection is `{B, A}` — re-extracting edge endpoints is not a
subset of the node ids. -/
theorem claim7_override_cex :
    (parseDotToReactFlow "digraph G \x7b A -> B [source=Q]; \x7d").map
      (fun r => r.edges.map (fun e => (e.source, e.target))) =
      some [("Q", "B")] ∧
    (parseDotToReactFlow "digraph G \x7b A -> B [source=Q]; \x7d").map
      (fun r => r.nodes.map (fun n => n.id)) = some ["B", "A"] ∧
    "Q" ∉ ((parseDotToReactFlow "digraph G \x7b A -> B [source=Q]; \x7d").getD
      { nodes := [], edges := [] }).nodes.map (fun n => n.id) :=
  ⟨by decide, by decide, by decide⟩

/-- C2 counterexample: `forceDirectedLayout` consults `Math.random()` for
every non-pinned node whose stored coordinate is absent or `0`; on the same
single-node input (a parser-produced node at the origin) two invocations
with different oracle streams return different positions, so the strategy is
not referentially consistent on identical `(nodes, edges, params)` input. -/
theorem claim2_force_nondeterminism_cex :
    (forceDirectedLayout opsW (fun _ => 0) [hNode "A"] [] 0 defaultSpacing).map
      (fun n => n.position) = [some ⟨0, 0⟩] ∧
    (forceDirectedLayout opsW (fun _ => 1) [hNode "A"] [] 0 defaultSpacing).map
      (fun n => n.position) = [some ⟨800, 600⟩] ∧
    forceDirectedLayout opsW (fun _ => 0) [hNode "A"] [] 0 defaultSpacing ≠
      forceDirectedLayout opsW (fun _ => 1) [hNode "A"] [] 0 defaultSpacing := by
  have h0 : (forceDirectedLayout opsW (fun _ => 0) [hNode "A"] [] 0 defaultSpacing).map
      (fun n => n.position) = [some ⟨0, 0⟩] := by
    simp [forceDirectedLayout, forceInitStep, hNode, isBlueNode, mset, mget, defaultSpacing]
  have h1 : (forceDirectedLayout opsW (fun _ => 1) [hNode "A"] [] 0 defaultSpacing).map
      (fun n => n.position) = [some ⟨800, 600⟩] := by
    simp [forceDirectedLayout, forceInitStep, hNode, isBlueNode, mset, mget, defaultSpacing]
  refine ⟨h0, h1, fun heq => ?_⟩
  have h2 := congrArg (List.map (fun n => n.position)) heq
  rw [h0, h1] at h2
  simp at h2

/-- C4 counterexample: the force-directed strategy returns its working
objects spread with a new position, so its output nodes do carry the
simulation fields (`x`, `y`, `vx`, `vy`, `fixed`) that were absent on the
input node — new fields are introduced. -/
theorem claim4_force_sim_fields_cex :
    (forceDirectedLayout opsW (fun _ => 0) [hNode "A"] [] 0 defaultSpacing).map
      (fun n => (n.vx, n.vy, n.fixed)) = [(some 0, some 0, some false)] ∧
    (hNode "A").vx = none ∧ (hNode "A").vy = none ∧ (hNode "A").fixed = none := by
  refine ⟨?_, rfl, rfl, rfl⟩
  simp [forceDirectedLayout, forceInitStep, hNode, isBlueNode, mset, mget, defaultSpacing]

/-- C8 counterexample: every node whose level is `0` (the center, and any
node unreachable from it) is placed exactly at the center, at distance `0`
from it, while the computed minimum radius of level `0`
(`baseRadius + 0 * radiusStep`) is `180` for a default 150-wide node — so it
is not true that at every level `k` nodes lie at distance at least the
level's computed minimum radius. -/
theorem claim8_center_level_cex :
    (radialLayout opsW [hNode "A"] [] none defaultSpacing).map
      (fun n => n.position) = [some ⟨400, 400⟩] ∧
    levelOfD (radialLevels [hNode "A"] [] none) "A" = 0 ∧
    radialRadius opsW (calculateMinSpacing [hNode "A"] defaultSpacing.nodeSpacing)
      defaultSpacing.radiusStep 1 0 = 180 ∧
    ((400 : ℚ) - 400) ^ 2 + ((400 : ℚ) - 400) ^ 2 < 180 ^ 2 := by
  refine ⟨?_, by decide, ?_, by norm_num⟩
  · simp [radialLayout, radialLevels, radialCenter, radialBound, levelUniverse, nodeIds,
      hierAdj, radialBfs, stepNeighbors, radialLevelGroups, radialAngles, radialParents,
      lmapMax, levelOfD, mget, mset, degreeEntries, stableSort, insertStable, isBlueNode,
      hNode, radialRadius, calculateMinSpacing, numOr, defaultSpacing, slotAngle, opsW]
  · simp [radialRadius, calculateMinSpacing, numOr, hNode, defaultSpacing]
    norm_num

/-- C1 counterexample: on `R->B, R->A, A->B, B->C` the hierarchical leveling
finishes with `level(B) = level(C) = 2` although `B` is an ancestor of `C`
through the edge `B->C` (whose dequeue derived `C`'s level): a node ends at
a level less than or equal to an ancestor's, and the final `level(C)` is
below the final `level(B) + 1`. -/
theorem claim1_hierarchical_ancestor_levels_cex :
    hierarchicalLevels cexHNodes cexHEdges =
      [("R", 0), ("B", 2), ("A", 1), ("C", 2)] ∧
    (cexHEdges.map (fun e => (e.source, e.target))).contains ("B", "C") = true ∧
    levelOfD (hierarchicalLevels cexHNodes cexHEdges) "C" ≤
      levelOfD (hierarchicalLevels cexHNodes cexHEdges) "B" :=
  ⟨by decide, by decide, by decide⟩

/-! ### C4: layout changes only positions (amended) -/

/-- Erase the position property of a node. -/
def stripPos (n : RFNode) : RFNode := { n with position := none }

/-- Mapping a position-only rewrite over a node list is invisible after
erasing positions. -/
theorem map_stripPos_of_pointwise {f : RFNode → RFNode}
    (hf : ∀ n, stripPos (f n) = stripPos n) :
    ∀ l : List RFNode, (l.map f).map stripPos = l.map stripPos := by
  intro l
  induction l with
  | nil => rfl
  | cons a t ih => simp [hf, ih]

/-- The indexed variant, for the `enumFrom`-shaped map of the grid layout. -/
theorem enumFrom_map_stripPos {f : Nat × RFNode → RFNode}
    (hf : ∀ p, stripPos (f p) = stripPos p.2) :
    ∀ (l : List RFNode) (k : Nat),
      ((l.enumFrom k).map f).map stripPos = l.map stripPos := by
  intro l
  induction l with
  | nil => intro k; rfl
  | cons a t ih => intro k; simp [List.enumFrom, hf, ih]

/-- C4 amended: the circular, grid, hierarchical and radial strategies return
exactly the input nodes with only the position rewritten — identity and all
other attributes survive and no new fields appear.  (The force-directed
strategy violates the original claim: its outputs carry the simulation
working fields, see the counterexample.) -/
theorem claim4_frame (ops : FloatOps) (nodes : List RFNode) (edges : List RFEdge)
    (cx cy : ℚ) (cols : Option Nat) (dir : String) (cid : Option String)
    (spacing : Spacing) :
    (circularLayout ops nodes cx cy spacing).map stripPos = nodes.map stripPos ∧
    (gridLayout nodes cols spacing).map stripPos = nodes.map stripPos ∧
    (hierarchicalLayout nodes edges dir spacing).map stripPos = nodes.map stripPos ∧
    (radialLayout ops nodes edges cid spacing).map stripPos = nodes.map stripPos := by
  refine ⟨?_, ?_, ?_, ?_⟩
  · simp only [circularLayout]
    refine map_stripPos_of_pointwise (fun n => ?_) nodes
    cases nodes.find? isBlueNode with
    | none => rfl
    | some b => dsimp only; split <;> rfl
  · simp only [gridLayout, List.enum]
    refine enumFrom_map_stripPos (fun p => ?_) nodes 0
    rfl
  · simp only [hierarchicalLayout]
    refine map_stripPos_of_pointwise (fun n => ?_) nodes
    split <;> rfl
  · simp only [radialLayout]
    refine map_stripPos_of_pointwise (fun n => ?_) nodes
    rfl

/-! ### C2: determinism of the strategies (amended) -/

/-- The initialization step ignores the random oracle on a node whose stored
coordinates are both nonzero (or on the pinned node). -/
theorem forceInitStep_rng_free (rng1 rng2 : Nat → ℚ) (blue : Option RFNode)
    (node : RFNode) (acc : List (String × RFNode) × Nat)
    (h : ∃ p : Pt, node.position = some p ∧ p.x ≠ 0 ∧ p.y ≠ 0) :
    forceInitStep rng1 blue acc node = forceInitStep rng2 blue acc node := by
  obtain ⟨p, hp, hx, hy⟩ := h
  cases blue with
  | none => simp [forceInitStep, hp, hx, hy]
  | some b =>
    by_cases hb : node.id == b.id <;> simp [forceInitStep, hp, hx, hy, hb]

/-- The whole initialization fold ignores the random oracle when every node
has nonzero stored coordinates. -/
theorem forceInit_fold_rng_free (rng1 rng2 : Nat → ℚ) (blue : Option RFNode) :
    ∀ (l : List RFNode) (acc : List (String × RFNode) × Nat),
      (∀ n ∈ l, ∃ p : Pt, n.position = some p ∧ p.x ≠ 0 ∧ p.y ≠ 0) →
      l.foldl (forceInitStep rng1 blue) acc = l.foldl (forceInitStep rng2 blue) acc := by
  intro l
  induction l with
  | nil => intro acc _; rfl
  | cons a t ih =>
    intro acc h
    simp only [List.foldl_cons]
    rw [forceInitStep_rng_free rng1 rng2 blue a acc (h a (by simp))]
    exact ih _ (fun n hn => h n (by simp [hn]))

/-- C2 amended: a layout strategy is a pure function of its input except that
`forceDirectedLayout` additionally consults the `Math.random` oracle — once
per absent-or-zero stored coordinate of a non-pinned node.  On inputs where
every node has nonzero stored coordinates no random call happens, and the
force-directed output is independent of the oracle stream: two invocations
on the same input agree. -/
theorem claim2_force_rng_free (ops : FloatOps) (rng1 rng2 : Nat → ℚ)
    (nodes : List RFNode) (edges : List RFEdge) (iterations : Nat)
    (spacing : Spacing)
    (h : ∀ n ∈ nodes, ∃ p : Pt, n.position = some p ∧ p.x ≠ 0 ∧ p.y ≠ 0) :
    forceDirectedLayout ops rng1 nodes edges iterations spacing =
      forceDirectedLayout ops rng2 nodes edges iterations spacing := by
  simp only [forceDirectedLayout]
  rw [forceInit_fold_rng_free rng1 rng2 (nodes.find? isBlueNode) nodes ([], 0) h]

/-- A node with both coordinates nonzero, for the C2 witness. -/
def wNode : RFNode :=
  { id := "W", label := "W", position := some ⟨5, 7⟩,
    width := some 150, height := some 40 }

/-- C2 witness: a concrete rng-independent invocation. -/
theorem claim2_witness :
    forceDirectedLayout opsW (fun _ => 0) [wNode] [] 50 defaultSpacing =
      forceDirectedLayout opsW (fun _ => 17) [wNode] [] 50 defaultSpacing :=
  claim2_force_rng_free opsW (fun _ => 0) (fun _ => 17) [wNode] [] 50
    defaultSpacing (by
      intro n hn
      simp only [List.mem_singleton] at hn
      subst hn
      exact ⟨⟨5, 7⟩, rfl, by norm_num, by norm_num⟩)

/-! ### Association-list lemmas -/

theorem mget_nil {κ α : Type} [BEq κ] (k : κ) : mget ([] : List (κ × α)) k = none := rfl

theorem mget_append {κ α : Type} [BEq κ] (m l : List (κ × α)) (k : κ) :
    mget (m ++ l) k = ((mget m k).rec (mget l k) (fun v => some v) : Option α) := by
  induction m with
  | nil => simp [mget]
  | cons p t ih =>
    by_cases h : p.1 == k <;> simp [mget, List.find?, h] <;>
      simpa [mget] using ih

theorem mget_none_of_not_has {κ α : Type} [BEq κ] (m : List (κ × α)) (k : κ)
    (h : m.any (fun p => p.1 == k) = false) : mget m k = none := by
  induction m with
  | nil => rfl
  | cons p t ih =>
    simp only [List.any_cons, Bool.or_eq_false_iff] at h
    simp [mget, List.find?, h.1]
    simpa [mget] using ih h.2

theorem mget_map_update_self {κ α : Type} [BEq κ] [LawfulBEq κ]
    (m : List (κ × α)) (k : κ) (v : α)
    (h : m.any (fun p => p.1 == k) = true) :
    mget (m.map (fun p => if p.1 == k then (k, v) else p)) k = some v := by
  induction m with
  | nil => simp at h
  | cons p t ih =>
    by_cases hp : p.1 == k
    · simp [mget, List.find?, hp]
    · simp only [List.any_cons, hp, Bool.false_or] at h
      simp only [List.map_cons, hp, if_neg, ite_false]
      simpa [mget, List.find?, hp] using ih h

theorem mget_map_update_ne {κ α : Type} [BEq κ] [LawfulBEq κ]
    (m : List (κ × α)) (k k' : κ) (v : α) (h : (k' == k) = false) :
    mget (m.map (fun p => if p.1 == k then (k, v) else p)) k' = mget m k' := by
  induction m with
  | nil => rfl
  | cons p t ih =>
    by_cases hp : p.1 == k
    · have hpk : p.1 = k := by simpa using hp
      have hk' : (k == k') = false := by
        simp only [beq_eq_false_iff_ne] at h ⊢
        exact fun hc => h hc.symm
      have hp' : (p.1 == k') = false := by rw [hpk]; exact hk'
      simp only [List.map_cons, hp, ite_true]
      simp [mget, List.find?, hk', hp']
      simpa [mget] using ih
    · simp only [List.map_cons, hp, ite_false]
      by_cases hq : p.1 == k'
      · simp [mget, List.find?, hq]
      · simp [mget, List.find?, hq]
        simpa [mget] using ih

/-- The central map lemma: `Map.set` then `Map.get`. -/
theorem mget_mset {κ α : Type} [BEq κ] [LawfulBEq κ]
    (m : List (κ × α)) (k k' : κ) (v : α) :
    mget (mset m k v) k' = if k' == k then some v else mget m k' := by
  by_cases hk : k' == k
  · have hk' : k' = k := by simpa using hk
    subst hk'
    by_cases h : m.any (fun p => p.1 == k') = true
    · unfold mset
      rw [if_pos h, mget_map_update_self m k' v h]
      simp [hk]
    · unfold mset
      rw [if_neg h, mget_append,
        mget_none_of_not_has m k' (Bool.eq_false_iff.mpr h)]
      simp [hk, mget, List.find?]
  · have hkF : (k' == k) = false := by simpa using hk
    by_cases h : m.any (fun p => p.1 == k) = true
    · unfold mset
      rw [if_pos h, mget_map_update_ne m k k' v hkF]
      simp [hkF]
    · unfold mset
      rw [if_neg h, mget_append]
      have hkF2 : (k == k') = false :=
        beq_eq_false_iff_ne.mpr (fun hc => (beq_eq_false_iff_ne.mp hkF) hc.symm)
      have hv : mget [(k, v)] k' = none := by simp [mget, List.find?, hkF2]
      cases hm : mget m k' <;> simp [hkF, hv]

/-! ### Neighbor-processing lemmas -/

/-- `stepNeighbors` appends exactly the nodes it collects to the visited
set. -/
theorem stepNeighbors_visited (cur : Nat) :
    ∀ (ns : List String) (lv : LMap) (vis : List String),
      (stepNeighbors cur ns lv vis).2.1 = vis ++ (stepNeighbors cur ns lv vis).2.2 := by
  intro ns
  induction ns with
  | nil => intro lv vis; simp [stepNeighbors]
  | cons n t ih =>
    intro lv vis
    by_cases h : vis.contains n
    · simp only [stepNeighbors, h, if_true]
      exact ih _ _
    · simp only [stepNeighbors, h, if_false, Bool.false_eq_true]
      rw [ih (mset lv n (cur + 1)) (vis ++ [n])]
      simp

/-- The collected nodes are fresh (not yet visited), mutually distinct, and
drawn from the neighbor list. -/
theorem stepNeighbors_added (cur : Nat) :
    ∀ (ns : List String) (lv : LMap) (vis : List String),
      (∀ a ∈ (stepNeighbors cur ns lv vis).2.2,
        vis.contains a = false ∧ a ∈ ns) ∧
      (stepNeighbors cur ns lv vis).2.2.Nodup := by
  intro ns
  induction ns with
  | nil => intro lv vis; simp [stepNeighbors]
  | cons n t ih =>
    intro lv vis
    by_cases h : vis.contains n
    · simp only [stepNeighbors, h, if_true]
      refine ⟨fun a ha => ?_, (ih _ _).2⟩
      obtain ⟨h1, h2⟩ := (ih _ _).1 a ha
      exact ⟨h1, by simp [h2]⟩
    · simp only [stepNeighbors, h, if_false, Bool.false_eq_true]
      obtain ⟨ih1, ih2⟩ := ih (mset lv n (cur + 1)) (vis ++ [n])
      constructor
      · intro a ha
        simp only [List.mem_cons] at ha
        rcases ha with rfl | ha
        · exact ⟨Bool.eq_false_iff.mpr h, by simp⟩
        · obtain ⟨h1, h2⟩ := ih1 a ha
          have h1' : a ∉ vis ∧ a ≠ n := by simpa using h1
          exact ⟨by simpa using h1'.1, by simp [h2]⟩
      · refine List.nodup_cons.mpr ⟨fun hn => ?_, ih2⟩
        obtain ⟨h1, _⟩ := ih1 n hn
        simp at h1

/-- Levels only stay or grow across one neighbor pass, provided every leveled
node is already visited. -/
theorem stepNeighbors_mono (cur : Nat) :
    ∀ (ns : List String) (lv : LMap) (vis : List String),
      (∀ k, (mget lv k).isSome → vis.contains k = true) →
      (∀ k w, mget lv k = some w →
        ∃ w', mget (stepNeighbors cur ns lv vis).1 k = some w' ∧ w ≤ w') ∧
      (∀ k, (mget (stepNeighbors cur ns lv vis).1 k).isSome →
        ((stepNeighbors cur ns lv vis).2.1).contains k = true) := by
  intro ns
  induction ns with
  | nil =>
    intro lv vis hinv
    exact ⟨fun k w hk => ⟨w, by simpa [stepNeighbors] using hk, le_refl w⟩,
      fun k hk => by simpa [stepNeighbors] using hinv k (by simpa [stepNeighbors] using hk)⟩
  | cons n t ih =>
    intro lv vis hinv
    by_cases h : vis.contains n
    · simp only [stepNeighbors, h, if_true]
      set ex := (mget lv n).getD 0 with hex
      by_cases hgt : cur + 1 > ex
      · simp only [hgt, if_true]
        have hinv' : ∀ k, (mget (mset lv n (cur + 1)) k).isSome → vis.contains k = true := by
          intro k hk
          rw [mget_mset] at hk
          by_cases hkn : k == n
          · have : k = n := by simpa using hkn
            subst this; exact h
          · exact hinv k (by simpa [hkn] using hk)
        refine ⟨fun k w hk => ?_, (ih _ _ hinv').2⟩
        have step1 : ∃ w1, mget (mset lv n (cur + 1)) k = some w1 ∧ w ≤ w1 := by
          rw [mget_mset]
          by_cases hkn : k == n
          · have hkn' : k = n := by simpa using hkn
            subst hkn'
            have : ex = w := by rw [hex, hk]; rfl
            exact ⟨cur + 1, by simp [hkn], by omega⟩
          · exact ⟨w, by simp [hkn, hk], le_refl w⟩
        obtain ⟨w1, hw1, hle1⟩ := step1
        obtain ⟨w2, hw2, hle2⟩ := (ih _ _ hinv').1 k w1 hw1
        exact ⟨w2, hw2, le_trans hle1 hle2⟩
      · simp only [hgt, if_false]
        exact ih _ _ hinv
    · simp only [stepNeighbors, h, if_false, Bool.false_eq_true]
      have hinv' : ∀ k, (mget (mset lv n (cur + 1)) k).isSome →
          (vis ++ [n]).contains k = true := by
        intro k hk
        rw [mget_mset] at hk
        by_cases hkn : k == n
        · have : k = n := by simpa using hkn
          subst this; simp
        · have hmem := hinv k (by simpa [hkn] using hk)
          have : k ∈ vis := by simpa using hmem
          simp [this]
      refine ⟨fun k w hk => ?_, (ih _ _ hinv').2⟩
      have hkn : (k == n) = false := by
        rw [beq_eq_false_iff_ne]
        intro hkn'
        apply h
        rw [← hkn']
        exact hinv k (by simp [hk])
      have step1 : mget (mset lv n (cur + 1)) k = some w := by
        rw [mget_mset]; simp [hkn, hk]
      exact (ih _ _ hinv').1 k w step1

/-- A freshly discovered neighbor is leveled at exactly the dequeued node's
current level plus one, and that value survives the rest of the pass. -/
theorem stepNeighbors_sets_fresh (cur : Nat) :
    ∀ (ns : List String) (lv : LMap) (vis : List String) (n : String),
      (mget lv n = some (cur + 1) →
        mget (stepNeighbors cur ns lv vis).1 n = some (cur + 1)) ∧
      (vis.contains n = false → n ∈ ns →
        mget (stepNeighbors cur ns lv vis).1 n = some (cur + 1)) := by
  intro ns
  induction ns with
  | nil =>
    intro lv vis n
    exact ⟨fun h => by simpa [stepNeighbors] using h, fun _ h => by simp at h⟩
  | cons m t ih =>
    intro lv vis n
    constructor
    · intro hn
      by_cases h : vis.contains m
      · simp only [stepNeighbors, h, if_true]
        by_cases hgt : cur + 1 > (mget lv m).getD 0
        · simp only [hgt, if_true]
          apply (ih _ _ n).1
          rw [mget_mset]
          by_cases hnm : n == m
          · have : n = m := by simpa using hnm
            subst this
            have : (mget lv n).getD 0 = cur + 1 := by rw [hn]; rfl
            omega
          · simp [hnm, hn]
        · simp only [hgt, if_false]
          exact (ih _ _ n).1 hn
      · simp only [stepNeighbors, h, if_false, Bool.false_eq_true]
        apply (ih _ _ n).1
        rw [mget_mset]
        by_cases hnm : n == m <;> simp [hnm, hn]
    · intro hfresh hmem
      by_cases hnm : n = m
      · subst hnm
        simp only [stepNeighbors, hfresh, if_false, Bool.false_eq_true]
        apply (ih _ _ n).1
        rw [mget_mset]
        simp
      · have hmem' : n ∈ t := by
          rcases List.mem_cons.mp hmem with hc | hc
          · exact absurd hc hnm
          · exact hc
        by_cases h : vis.contains m
        · simp only [stepNeighbors, h, if_true]
          by_cases hgt : cur + 1 > (mget lv m).getD 0 <;> simp only [hgt, if_true, if_false]
          · exact (ih _ _ n).2 hfresh hmem'
          · exact (ih _ _ n).2 hfresh hmem'
        · simp only [stepNeighbors, h, if_false, Bool.false_eq_true]
          apply (ih _ _ n).2
          · have hv : n ∉ vis := by simpa using hfresh
            simp [hv, hnm]
          · exact hmem'

/-- C1 amended: when processing a dequeued node `u` at current level `L`, a
neighbor `v` not yet visited has its level derived from `u`: it is set to
exactly `L + 1` (first conjunct), and from any traversal state whose leveled
nodes are all visited, the remaining run of the hierarchical BFS never
lowers a recorded level (second conjunct) — so `v` finishes at a level of at
least `L + 1`.  The original claim fails beyond this: a later raise of `u`
is not re-enqueued, so `v`'s final level can be ≤ `u`'s final level (see the
counterexample). -/
theorem claim1_derivation_and_monotonicity :
    (∀ (cur : Nat) (ns : List String) (lv : LMap) (vis : List String) (v : String),
      vis.contains v = false → v ∈ ns →
      mget (stepNeighbors cur ns lv vis).1 v = some (cur + 1)) ∧
    (∀ (adj : String → List String) (fuel : Nat) (lv : LMap) (vis q : List String),
      (∀ k, (mget lv k).isSome → vis.contains k = true) →
      ∀ k w, mget lv k = some w →
        ∃ w', mget (hierBfs adj fuel lv vis q) k = some w' ∧ w ≤ w') := by
  constructor
  · intro cur ns lv vis v h1 h2
    exact (stepNeighbors_sets_fresh cur ns lv vis v).2 h1 h2
  · intro adj fuel
    induction fuel with
    | zero => intro lv vis q hinv k w hk; exact ⟨w, hk, le_refl w⟩
    | succ f ih =>
      intro lv vis q hinv k w hk
      cases q with
      | nil => exact ⟨w, hk, le_refl w⟩
      | cons c rest =>
        simp only [hierBfs]
        set cur := (mget lv c).getD 0 with hcur
        obtain ⟨hmono, hinv'⟩ := stepNeighbors_mono cur (adj c) lv vis hinv
        obtain ⟨w1, hw1, hle1⟩ := hmono k w hk
        obtain ⟨w2, hw2, hle2⟩ := ih _ _ _ hinv' k w1 hw1
        exact ⟨w2, hw2, le_trans hle1 hle2⟩

/-- C1 witness: concrete instances of both conjuncts on the
diamond-with-tail graph (processing the root `R` at level 0 freshly levels
`B` at 1; from the state right after `C` was derived at level 2, `C` finishes
at a level of at least 2). -/
theorem claim1_witness :
    mget (stepNeighbors 0 ["B", "A"] [("R", 0)] ["R"]).1 "B" = some 1 ∧
    (∃ w', mget (hierBfs (hierAdj cexHNodes cexHEdges) 2
        [("R", 0), ("B", 1), ("A", 1), ("C", 2)] ["R", "B", "A", "C"] ["A", "C"]) "C" =
        some w' ∧ 2 ≤ w') := by
  constructor
  · exact claim1_derivation_and_monotonicity.1 0 ["B", "A"] [("R", 0)] ["R"] "B"
      (by decide) (by decide)
  · refine claim1_derivation_and_monotonicity.2 (hierAdj cexHNodes cexHEdges) 2
      [("R", 0), ("B", 1), ("A", 1), ("C", 2)] ["R", "B", "A", "C"] ["A", "C"]
      ?_ "C" 2 (by decide)
    intro k hk
    by_cases h1 : k = "R"
    · subst h1; decide
    by_cases h2 : k = "B"
    · subst h2; decide
    by_cases h3 : k = "A"
    · subst h3; decide
    by_cases h4 : k = "C"
    · subst h4; decide
    exfalso
    have e1 : (("R" : String) == k) = false := beq_eq_false_iff_ne.mpr (fun hc => h1 hc.symm)
    have e2 : (("B" : String) == k) = false := beq_eq_false_iff_ne.mpr (fun hc => h2 hc.symm)
    have e3 : (("A" : String) == k) = false := beq_eq_false_iff_ne.mpr (fun hc => h3 hc.symm)
    have e4 : (("C" : String) == k) = false := beq_eq_false_iff_ne.mpr (fun hc => h4 hc.symm)
    simp [mget, List.find?, e1, e2, e3, e4] at hk

/-! ### C5: the leveling loops drain their queues within a computable bound

The decreasing measure: unvisited ids of the universe plus queue length. -/

/-- Number of universe ids not yet visited. -/
def unvisitedCount (u vis : List String) : Nat :=
  (u.filter (fun x => !vis.contains x)).length

/-- The measure of a hierarchical traversal state. -/
def hierMu (u vis q : List String) : Nat := unvisitedCount u vis + q.length

/-- The measure of a radial traversal state. -/
def radialMu (u vis : List String) (q : List (String × Nat)) : Nat :=
  unvisitedCount u vis + q.length

/-- Visiting one fresh universe id decreases the unvisited count by one. -/
theorem unvisitedCount_snoc (u : List String) (hU : u.Nodup) (vis : List String)
    (a : String) (ha : a ∈ u) (hav : a ∉ vis) :
    unvisitedCount u vis = unvisitedCount u (vis ++ [a]) + 1 := by
  induction u with
  | nil => simp at ha
  | cons x t ih =>
    obtain ⟨hx, ht⟩ := List.nodup_cons.mp hU
    unfold unvisitedCount
    rw [List.filter_cons, List.filter_cons]
    by_cases hax : a = x
    · subst hax
      have hpa : (!vis.contains a) = true := by simpa using hav
      have hpa' : (!(vis ++ [a]).contains a) = false := by simp
      rw [hpa, hpa']
      have hfil : List.filter (fun y => !(vis ++ [a]).contains y) t =
          List.filter (fun y => !vis.contains y) t := by
        apply List.filter_congr
        intro y hy
        have hya : y ≠ a := fun hc => hx (hc ▸ hy)
        simp [hya]
      rw [hfil]
      simp
    · have hxa : ((vis ++ [a]).contains x) = (vis.contains x) := by
        have : x ≠ a := fun hc => hax hc.symm
        simp [this]
      rw [hxa]
      have hat : a ∈ t := by
        rcases List.mem_cons.mp ha with hc | hc
        · exact absurd hc hax
        · exact hc
      have hrec := ih ht hat
      unfold unvisitedCount at hrec
      cases hv : (!vis.contains x)
      · simpa using hrec
      · simpa using hrec

/-- Visiting a batch of fresh, distinct universe ids decreases the unvisited
count by the batch size. -/
theorem unvisitedCount_append (u : List String) (hU : u.Nodup) :
    ∀ (added vis : List String), added.Nodup →
      (∀ a ∈ added, a ∉ vis ∧ a ∈ u) →
      unvisitedCount u vis = unvisitedCount u (vis ++ added) + added.length := by
  intro added
  induction added with
  | nil => intro vis _ _; simp
  | cons a rest ih =>
    intro vis hnd hfr
    obtain ⟨hra, hrest⟩ := List.nodup_cons.mp hnd
    obtain ⟨hav, hau⟩ := hfr a (by simp)
    have step1 := unvisitedCount_snoc u hU vis a hau hav
    have step2 := ih (vis ++ [a]) hrest (by
      intro b hb
      obtain ⟨hbv, hbu⟩ := hfr b (by simp [hb])
      refine ⟨?_, hbu⟩
      simp only [List.mem_append, List.mem_singleton]
      rintro (hc | hc)
      · exact hbv hc
      · exact hra (hc ▸ hb))
    have : vis ++ a :: rest = (vis ++ [a]) ++ rest := by simp
    rw [this, step1, step2]
    simp [Nat.add_assoc, Nat.add_comm, Nat.add_left_comm]

/-- The empty queue is inert for any fuel. -/
theorem hierBfs_nil (adj : String → List String) (fuel : Nat) (lv : LMap)
    (vis : List String) : hierBfs adj fuel lv vis [] = lv := by
  cases fuel <;> rfl

/-- The empty queue is inert for any fuel (radial loop). -/
theorem radialBfs_nil (adj : String → List String) (fuel : Nat) (lv : LMap)
    (vis : List String) : radialBfs adj fuel lv vis [] = lv := by
  cases fuel <;> rfl

/-- One dequeue strictly decreases the hierarchical measure. -/
theorem hierMu_step (adj : String → List String) (u : List String)
    (hadj : ∀ c x, x ∈ adj c → x ∈ u) (hU : u.Nodup) (lv : LMap)
    (vis : List String) (c : String) (rest : List String) :
    hierMu u (stepNeighbors ((mget lv c).getD 0) (adj c) lv vis).2.1
        (rest ++ (stepNeighbors ((mget lv c).getD 0) (adj c) lv vis).2.2) + 1 =
      hierMu u vis (c :: rest) := by
  set cur := (mget lv c).getD 0
  set r := stepNeighbors cur (adj c) lv vis with hr
  have hvis := stepNeighbors_visited cur (adj c) lv vis
  obtain ⟨hfr, hnd⟩ := stepNeighbors_added cur (adj c) lv vis
  have hcount := unvisitedCount_append u hU r.2.2 vis hnd (by
    intro a ha
    obtain ⟨h1, h2⟩ := hfr a ha
    exact ⟨by simpa using h1, hadj c a h2⟩)
  rw [hierMu, hierMu, ← hr] at *
  rw [hvis]
  rw [hcount]
  simp [List.length_append]
  omega

/-- One dequeue strictly decreases the radial measure. -/
theorem radialMu_step (adj : String → List String) (u : List String)
    (hadj : ∀ c x, x ∈ adj c → x ∈ u) (hU : u.Nodup) (lv : LMap)
    (vis : List String) (c : String) (level : Nat) (rest : List (String × Nat)) :
    radialMu u (stepNeighbors level (adj c) lv vis).2.1
        (rest ++ ((stepNeighbors level (adj c) lv vis).2.2).map (fun a => (a, level + 1))) + 1 =
      radialMu u vis ((c, level) :: rest) := by
  set r := stepNeighbors level (adj c) lv vis with hr
  have hvis := stepNeighbors_visited level (adj c) lv vis
  obtain ⟨hfr, hnd⟩ := stepNeighbors_added level (adj c) lv vis
  have hcount := unvisitedCount_append u hU r.2.2 vis hnd (by
    intro a ha
    obtain ⟨h1, h2⟩ := hfr a ha
    exact ⟨by simpa using h1, hadj c a h2⟩)
  rw [radialMu, radialMu, ← hr] at *
  rw [hvis]
  rw [hcount]
  simp [List.length_append]
  omega

/-- Fuel beyond the measure is irrelevant: the hierarchical loop computes the
same level map with any sufficient fuel (it has drained its queue by then —
termination on every finite graph, cyclic or not). -/
theorem hierBfs_stable (adj : String → List String) (u : List String)
    (hadj : ∀ c x, x ∈ adj c → x ∈ u) (hU : u.Nodup) :
    ∀ (fuel : Nat) (lv : LMap) (vis q : List String), hierMu u vis q ≤ fuel →
      hierBfs adj fuel lv vis q = hierBfs adj (hierMu u vis q) lv vis q := by
  intro fuel
  induction fuel using Nat.strong_induction_on with
  | _ fuel ih =>
    intro lv vis q hle
    cases q with
    | nil => rw [hierBfs_nil, hierBfs_nil]
    | cons c rest =>
      have hmu1 : 1 ≤ hierMu u vis (c :: rest) := by
        unfold hierMu
        simp only [List.length_cons]
        omega
      cases fuel with
      | zero => omega
      | succ f =>
        have hdec := hierMu_step adj u hadj hU lv vis c rest
        set cur := (mget lv c).getD 0 with hcur
        set r := stepNeighbors cur (adj c) lv vis with hr
        have hstepL : hierBfs adj (f + 1) lv vis (c :: rest) =
            hierBfs adj f r.1 r.2.1 (rest ++ r.2.2) := rfl
        obtain ⟨mu', hmu'⟩ : ∃ mu', hierMu u vis (c :: rest) = mu' + 1 :=
          ⟨hierMu u vis (c :: rest) - 1, by omega⟩
        have hmu'eq : hierMu u r.2.1 (rest ++ r.2.2) = mu' := by omega
        have hstepR : hierBfs adj (mu' + 1) lv vis (c :: rest) =
            hierBfs adj mu' r.1 r.2.1 (rest ++ r.2.2) := rfl
        rw [hstepL, hmu', hstepR]
        have hf : hierMu u r.2.1 (rest ++ r.2.2) ≤ f := by omega
        rw [ih f (by omega) r.1 r.2.1 (rest ++ r.2.2) hf, hmu'eq]

/-- Fuel beyond the measure is irrelevant for the radial loop as well. -/
theorem radialBfs_stable (adj : String → List String) (u : List String)
    (hadj : ∀ c x, x ∈ adj c → x ∈ u) (hU : u.Nodup) :
    ∀ (fuel : Nat) (lv : LMap) (vis : List String) (q : List (String × Nat)),
      radialMu u vis q ≤ fuel →
      radialBfs adj fuel lv vis q = radialBfs adj (radialMu u vis q) lv vis q := by
  intro fuel
  induction fuel using Nat.strong_induction_on with
  | _ fuel ih =>
    intro lv vis q hle
    cases q with
    | nil => rw [radialBfs_nil, radialBfs_nil]
    | cons ce rest =>
      obtain ⟨c, level⟩ := ce
      have hmu1 : 1 ≤ radialMu u vis ((c, level) :: rest) := by
        unfold radialMu
        simp only [List.length_cons]
        omega
      cases fuel with
      | zero => omega
      | succ f =>
        have hdec := radialMu_step adj u hadj hU lv vis c level rest
        set r := stepNeighbors level (adj c) lv vis with hr
        have hstepL : radialBfs adj (f + 1) lv vis ((c, level) :: rest) =
            radialBfs adj f r.1 r.2.1 (rest ++ r.2.2.map (fun a => (a, level + 1))) := rfl
        obtain ⟨mu', hmu'⟩ : ∃ mu', radialMu u vis ((c, level) :: rest) = mu' + 1 :=
          ⟨radialMu u vis ((c, level) :: rest) - 1, by omega⟩
        have hmu'eq : radialMu u r.2.1 (rest ++ r.2.2.map (fun a => (a, level + 1))) = mu' := by
          omega
        have hstepR : radialBfs adj (mu' + 1) lv vis ((c, level) :: rest) =
            radialBfs adj mu' r.1 r.2.1 (rest ++ r.2.2.map (fun a => (a, level + 1))) := rfl
        rw [hstepL, hmu', hstepR]
        have hf : radialMu u r.2.1 (rest ++ r.2.2.map (fun a => (a, level + 1))) ≤ f := by
          omega
        rw [ih f (by omega) r.1 r.2.1 _ hf, hmu'eq]

/-- The forward adjacency only produces universe ids. -/
theorem hierAdj_mem_universe (nodes : List RFNode) (edges : List RFEdge) :
    ∀ c x, x ∈ hierAdj nodes edges c → x ∈ levelUniverse nodes edges := by
  intro c x hx
  unfold hierAdj at hx
  split at hx
  · simp only [List.mem_map] at hx
    obtain ⟨e, he, rfl⟩ := hx
    have : e.target ∈ edges.map (fun e => e.target) :=
      List.mem_map.mpr ⟨e, (List.mem_filter.mp he).1, rfl⟩
    unfold levelUniverse
    rw [List.mem_dedup]
    simp [this]
  · simp at hx

/-- C5: both leveling traversals terminate on every finite graph, including
cyclic ones — with any fuel at least the stated bound the loops have drained
their queues, so the computed level maps (every node receiving a
non-negative `Nat` level, absent ids defaulting to 0) are those of
`hierarchicalLevels` / `radialLevels`. -/
theorem claim5_leveling_terminates (nodes : List RFNode) (edges : List RFEdge)
    (centerNodeId : Option String) (center : String) (fuel1 fuel2 : Nat)
    (h1 : hierBound nodes edges ≤ fuel1)
    (h2 : radialBound nodes edges ≤ fuel2)
    (hc : radialCenter nodes edges centerNodeId = some center) :
    hierBfs (hierAdj nodes edges) fuel1 (hierInitLevels nodes edges)
        (hierInitVisited nodes edges) (hierInitQueue nodes edges) =
      hierarchicalLevels nodes edges ∧
    radialBfs (hierAdj nodes edges) fuel2 [(center, 0)] [center] [(center, 0)] =
      radialLevels nodes edges centerNodeId := by
  have hadj := hierAdj_mem_universe nodes edges
  have hU : (levelUniverse nodes edges).Nodup := List.nodup_dedup _
  constructor
  · have hmu : hierMu (levelUniverse nodes edges) (hierInitVisited nodes edges)
        (hierInitQueue nodes edges) ≤ hierBound nodes edges := by
      have hq : (hierInitQueue nodes edges).length ≤ nodes.length := by
        unfold hierInitQueue hierRoots
        rw [List.length_map]
        dsimp only
        split
        · simp [List.length_take]
        · exact List.length_filter_le _ _
      have hcv : unvisitedCount (levelUniverse nodes edges)
          (hierInitVisited nodes edges) ≤ (levelUniverse nodes edges).length :=
        List.length_filter_le _ _
      unfold hierBound
      unfold hierMu
      omega
    rw [hierBfs_stable (hierAdj nodes edges) _ hadj hU fuel1 _ _ _ (le_trans hmu h1)]
    unfold hierarchicalLevels
    rw [hierBfs_stable (hierAdj nodes edges) _ hadj hU (hierBound nodes edges) _ _ _ hmu]
  · have hmu : radialMu (levelUniverse nodes edges) [center] [(center, 0)] ≤
        radialBound nodes edges := by
      have hcv : unvisitedCount (levelUniverse nodes edges) [center] ≤
          (levelUniverse nodes edges).length := List.length_filter_le _ _
      unfold radialBound
      unfold radialMu
      simp
      omega
    rw [radialBfs_stable (hierAdj nodes edges) _ hadj hU fuel2 _ _ _ (le_trans hmu h2)]
    unfold radialLevels
    simp only [hc]
    rw [radialBfs_stable (hierAdj nodes edges) _ hadj hU (radialBound nodes edges) _ _ _ hmu]

/-- C5 witness: Scenario D — the 3-cycle `A->B->C->A` levels to finite
non-negative values under both traversals, with fuel 10 beyond the bounds. -/
theorem claim5_witness :
    (hierBfs (hierAdj cycNodes cycEdges) 10 (hierInitLevels cycNodes cycEdges)
        (hierInitVisited cycNodes cycEdges) (hierInitQueue cycNodes cycEdges) =
      hierarchicalLevels cycNodes cycEdges ∧
     radialBfs (hierAdj cycNodes cycEdges) 10 [("A", 0)] ["A"] [("A", 0)] =
      radialLevels cycNodes cycEdges none) ∧
    hierarchicalLevels cycNodes cycEdges = [("A", 3), ("B", 1), ("C", 2)] ∧
    radialLevels cycNodes cycEdges none = [("A", 3), ("B", 1), ("C", 2)] :=
  ⟨claim5_leveling_terminates cycNodes cycEdges none "A" 10 10
      (by decide) (by decide) (by decide),
   by decide, by decide⟩

/-! ### C6/C7: node-map key bookkeeping -/

/-- Symmetry of boolean equality under a lawful instance. -/
theorem beq_symm_eq {κ : Type} [BEq κ] [LawfulBEq κ] (a b : κ) :
    (a == b) = (b == a) := by
  by_cases h : a = b
  · subst h; rfl
  · rw [beq_eq_false_iff_ne.mpr h, beq_eq_false_iff_ne.mpr (fun hc => h hc.symm)]

/-- `Map.has` is key-list membership. -/
theorem mhas_eq_keys_contains {κ α : Type} [BEq κ] [LawfulBEq κ]
    (m : List (κ × α)) (k : κ) :
    mhas m k = (m.map (fun p => p.1)).contains k := by
  induction m with
  | nil => rfl
  | cons p t ih =>
    show (p.1 == k || t.any (fun q => q.1 == k)) = _
    rw [List.map_cons, List.contains_cons, beq_symm_eq k p.1]
    show _ = (p.1 == k || (t.map (fun q => q.1)).contains k)
    rw [← ih]
    rfl

/-- `Map.has` is definedness of `Map.get`. -/
theorem mhas_eq_isSome_mget {κ α : Type} [BEq κ] (m : List (κ × α)) (k : κ) :
    mhas m k = (mget m k).isSome := by
  induction m with
  | nil => rfl
  | cons p t ih =>
    by_cases h : (p.1 == k) = true
    · simp [mhas, mget, List.find?, h]
    · have h' : (p.1 == k) = false := Bool.eq_false_iff.mpr h
      rw [show mhas (p :: t) k = mhas t k from by simp [mhas, h'],
        show mget (p :: t) k = mget t k from by simp [mget, List.find?, h']]
      exact ih

/-- Updating the binding of an existing key leaves the key list unchanged. -/
theorem mkeys_map_update {κ α : Type} [BEq κ] [LawfulBEq κ]
    (m : List (κ × α)) (k : κ) (v : α) :
    (m.map (fun p => if p.1 == k then (k, v) else p)).map (fun p => p.1) =
      m.map (fun p => p.1) := by
  induction m with
  | nil => rfl
  | cons p t ih =>
    by_cases hp : (p.1 == k) = true
    · have hp' : p.1 = k := by simpa using hp
      simp [hp, hp', ih]
    · simp [Bool.eq_false_iff.mpr hp, ih]

/-- Setting a fresh key appends it; setting an existing key leaves the key
list unchanged. -/
theorem mkeys_mset {κ α : Type} [BEq κ] [LawfulBEq κ]
    (m : List (κ × α)) (k : κ) (v : α) :
    (mset m k v).map (fun p => p.1) =
      if mhas m k then m.map (fun p => p.1) else m.map (fun p => p.1) ++ [k] := by
  unfold mset
  by_cases h : (m.any fun p => p.1 == k) = true
  · rw [if_pos h, if_pos (show mhas m k = true from h), mkeys_map_update]
  · rw [if_neg h, if_neg (show ¬(mhas m k = true) from h)]
    simp

/-- First-occurrence deduplication of a reference sequence, starting from an
existing key list. -/
def dedupInto (acc : List String) (l : List String) : List String :=
  l.foldl (fun acc x => if acc.contains x then acc else acc ++ [x]) acc

/-- First-occurrence deduplication of a reference sequence. -/
def dedupFirst (l : List String) : List String := dedupInto [] l

theorem dedupInto_append (acc l1 l2 : List String) :
    dedupInto acc (l1 ++ l2) = dedupInto (dedupInto acc l1) l2 := by
  unfold dedupInto
  rw [List.foldl_append]

theorem mem_dedupInto_of_mem_acc (acc l : List String) (a : String)
    (ha : a ∈ acc) : a ∈ dedupInto acc l := by
  induction l generalizing acc with
  | nil => exact ha
  | cons x t ih =>
    unfold dedupInto
    simp only [List.foldl_cons]
    by_cases hx : acc.contains x = true
    · rw [if_pos hx]; exact ih acc ha
    · rw [if_neg hx]; exact ih _ (by simp [ha])

theorem mem_dedupInto_of_mem (acc l : List String) (a : String)
    (ha : a ∈ l) : a ∈ dedupInto acc l := by
  induction l generalizing acc with
  | nil => simp at ha
  | cons x t ih =>
    unfold dedupInto
    simp only [List.foldl_cons]
    rcases List.mem_cons.mp ha with rfl | hat
    · by_cases hx : acc.contains a = true
      · rw [if_pos hx]
        exact mem_dedupInto_of_mem_acc acc t a (by simpa using hx)
      · rw [if_neg hx]
        exact mem_dedupInto_of_mem_acc _ t a (by simp)
    · by_cases hx : acc.contains x = true
      · rw [if_pos hx]; exact ih acc hat
      · rw [if_neg hx]; exact ih _ hat

/-- The node-definition matches that the source's skip checks do not
discard. -/
def qualifiesNodeDef (d : NodeDefM) : Bool :=
  !d.lineSkip && !(graphKeywords.contains (lowerStr d.id) && d.attrs = "")

/-- The keys after one node-definition step: a qualifying fresh id is
appended, everything else leaves the key list unchanged. -/
theorem mkeys_defStep (m : List (String × RFNode)) (d : NodeDefM) :
    (defStep m d).map (fun p => p.1) =
      if qualifiesNodeDef d then
        (if mhas m d.id then m.map (fun p => p.1)
         else m.map (fun p => p.1) ++ [d.id])
      else m.map (fun p => p.1) := by
  unfold defStep
  split
  case isTrue h1 =>
    rw [if_neg (show ¬(qualifiesNodeDef d = true) from by simp [qualifiesNodeDef, h1])]
  case isFalse h1 =>
    have h1' : d.lineSkip = false := Bool.eq_false_iff.mpr h1
    split
    case isTrue h2 =>
      rw [if_neg (show ¬(qualifiesNodeDef d = true) from by
        simp only [qualifiesNodeDef, h1', Bool.not_false, Bool.true_and, h2,
          Bool.not_true]
        exact Bool.false_ne_true)]
    case isFalse h2 =>
      have hq : qualifiesNodeDef d = true := by
        simp only [qualifiesNodeDef, h1', Bool.not_false, Bool.true_and,
          Bool.eq_false_iff.mpr h2, Bool.not_false]
      rw [if_pos hq]
      split
      case isTrue h3 =>
        cases hmg : mget m d.id with
        | some existing =>
          have hhas : mhas m d.id = true := by
            rw [mhas_eq_isSome_mget, hmg]; rfl
          rw [if_pos hhas, mkeys_mset, if_pos hhas]
        | none =>
          have hhas : mhas m d.id = false := by
            rw [mhas_eq_isSome_mget, hmg]; rfl
          rw [if_neg (by simp [hhas]), mkeys_mset, if_neg (by simp [hhas])]
      case isFalse h3 =>
        have hhas : mhas m d.id = true := by
          by_contra hc
          apply h3
          simp [Bool.eq_false_iff.mpr hc]
        rw [if_pos hhas]

/-- The keys after one edge step: the extracted source then target are
appended when fresh (first-occurrence order). -/
theorem mkeys_edgeStep (acc : List (String × RFNode) × List RFEdge × Nat)
    (m : EdgeM) :
    ((edgeStep acc m).1).map (fun p => p.1) =
      dedupInto (acc.1.map (fun p => p.1)) [m.src, m.tgt] := by
  unfold edgeStep dedupInto
  simp only [List.foldl_cons, List.foldl_nil]
  rw [← mhas_eq_keys_contains]
  by_cases hs : mhas acc.1 m.src = true
  · rw [if_pos hs]
    simp only [hs, if_true]
    rw [← mhas_eq_keys_contains]
    by_cases ht : mhas acc.1 m.tgt = true
    · rw [if_pos ht]
      simp only [ht, if_true]
    · rw [if_neg ht]
      simp only [Bool.eq_false_iff.mpr ht, Bool.false_eq_true, if_false]
      rw [mkeys_mset, if_neg ht]
  · rw [if_neg hs]
    simp only [Bool.eq_false_iff.mpr hs, Bool.false_eq_true, if_false]
    have hk1 : (mset acc.1 m.src (autoNode m.src)).map (fun p => p.1) =
        acc.1.map (fun p => p.1) ++ [m.src] := by
      rw [mkeys_mset, if_neg hs]
    rw [← hk1, ← mhas_eq_keys_contains]
    by_cases ht : mhas (mset acc.1 m.src (autoNode m.src)) m.tgt = true
    · rw [if_pos ht]
      simp only [ht, if_true]
    · rw [if_neg ht]
      simp only [Bool.eq_false_iff.mpr ht, Bool.false_eq_true, if_false]
      rw [mkeys_mset, if_neg ht]

/-- Keys of the node-definition fold. -/
theorem mkeys_defFold :
    ∀ (ms : List NodeDefM) (m0 : List (String × RFNode)),
      ((ms.foldl defStep m0).map (fun p => p.1)) =
        dedupInto (m0.map (fun p => p.1))
          ((ms.filter qualifiesNodeDef).map (fun d => d.id)) := by
  intro ms
  induction ms with
  | nil => intro m0; rfl
  | cons d rest ih =>
    intro m0
    simp only [List.foldl_cons, List.filter_cons]
    by_cases hq : qualifiesNodeDef d = true
    · rw [if_pos hq]
      rw [ih (defStep m0 d), mkeys_defStep, if_pos hq]
      simp only [List.map_cons]
      unfold dedupInto
      simp only [List.foldl_cons]
      rw [← mhas_eq_keys_contains]
    · rw [if_neg hq]
      rw [ih (defStep m0 d), mkeys_defStep, if_neg hq]

/-- Keys of the edge fold. -/
theorem mkeys_edgeFold :
    ∀ (ms : List EdgeM) (acc : List (String × RFNode) × List RFEdge × Nat),
      (((ms.foldl edgeStep acc).1).map (fun p => p.1)) =
        dedupInto (acc.1.map (fun p => p.1))
          (ms.flatMap (fun m => [m.src, m.tgt])) := by
  intro ms
  induction ms with
  | nil => intro acc; rfl
  | cons m rest ih =>
    intro acc
    simp only [List.foldl_cons, List.flatMap_cons]
    rw [ih (edgeStep acc m), mkeys_edgeStep]
    rw [show ([m.src, m.tgt] ++ rest.flatMap (fun x => [x.src, x.tgt])) =
      [m.src, m.tgt] ++ rest.flatMap (fun x => [x.src, x.tgt]) from rfl]
    rw [dedupInto_append]

/-- Every stored node has its key as its `id` field. -/
def VInv (m : List (String × RFNode)) : Prop := ∀ p ∈ m, p.2.id = p.1

theorem VInv_mset (m : List (String × RFNode)) (k : String) (v : RFNode)
    (hm : VInv m) (hv : v.id = k) : VInv (mset m k v) := by
  unfold mset
  split
  · intro p hp
    simp only [List.mem_map] at hp
    obtain ⟨q, hq, rfl⟩ := hp
    by_cases hqk : (q.1 == k) = true
    · simp [hqk, hv]
    · simp only [hqk, Bool.false_eq_true, if_false]
      exact hm q hq
  · intro p hp
    rcases List.mem_append.mp hp with hq | hq
    · exact hm p hq
    · simp only [List.mem_singleton] at hq
      subst hq
      exact hv

theorem mget_mem {κ α : Type} [BEq κ] [LawfulBEq κ]
    (m : List (κ × α)) (k : κ) (v : α)
    (h : mget m k = some v) : (k, v) ∈ m := by
  induction m with
  | nil => simp [mget] at h
  | cons p t ih =>
    obtain ⟨k1, v1⟩ := p
    by_cases hp : (k1 == k) = true
    · have hp' : k1 = k := by simpa using hp
      subst hp'
      have h2 : v1 = v := by simpa [mget, List.find?] using h
      subst h2
      exact List.mem_cons_self _ _
    · have hp' : (k1 == k) = false := Bool.eq_false_iff.mpr hp
      have h2 : mget t k = some v := by simpa [mget, List.find?, hp'] using h
      exact List.mem_cons_of_mem _ (ih h2)

/-- Merging a repeated definition never changes the node's id. -/
theorem mergeNodeDef_id (ex : RFNode) (a : Attrs) :
    (mergeNodeDef ex a).id = ex.id := by
  unfold mergeNodeDef
  cases a.style <;> cases a.label <;> dsimp only <;> split_ifs <;> rfl

/-- The freshly built node definition carries the scanned id. -/
theorem buildNodeData_id (k : String) (a : Attrs) :
    (buildNodeData k a).id = k := by
  unfold buildNodeData
  cases a.style <;> rfl

theorem VInv_defStep (m : List (String × RFNode)) (d : NodeDefM)
    (hm : VInv m) : VInv (defStep m d) := by
  unfold defStep
  split
  · exact hm
  split
  · exact hm
  split
  · cases hmg : mget m d.id with
    | some existing =>
      have hexid : existing.id = d.id :=
        hm (d.id, existing) (mget_mem m d.id existing hmg)
      exact VInv_mset m d.id _ hm (by rw [mergeNodeDef_id]; exact hexid)
    | none =>
      exact VInv_mset m d.id _ hm (buildNodeData_id d.id _)
  · exact hm

theorem VInv_edgeStep (acc : List (String × RFNode) × List RFEdge × Nat)
    (m : EdgeM) (hm : VInv acc.1) : VInv (edgeStep acc m).1 := by
  unfold edgeStep
  dsimp only
  by_cases hs : mhas acc.1 m.src = true
  · rw [if_pos hs]
    by_cases ht : mhas acc.1 m.tgt = true
    · rw [if_pos ht]; exact hm
    · rw [if_neg ht]; exact VInv_mset _ _ _ hm rfl
  · rw [if_neg hs]
    have h1 : VInv (mset acc.1 m.src (autoNode m.src)) :=
      VInv_mset _ _ _ hm rfl
    by_cases ht : mhas (mset acc.1 m.src (autoNode m.src)) m.tgt = true
    · rw [if_pos ht]; exact h1
    · rw [if_neg ht]; exact VInv_mset _ _ _ h1 rfl

theorem VInv_defFold :
    ∀ (ms : List NodeDefM) (m0 : List (String × RFNode)),
      VInv m0 → VInv (ms.foldl defStep m0) := by
  intro ms
  induction ms with
  | nil => intro m0 h; exact h
  | cons d rest ih =>
    intro m0 h
    exact ih (defStep m0 d) (VInv_defStep m0 d h)

theorem VInv_edgeFold :
    ∀ (ms : List EdgeM) (acc : List (String × RFNode) × List RFEdge × Nat),
      VInv acc.1 → VInv (ms.foldl edgeStep acc).1 := by
  intro ms
  induction ms with
  | nil => intro acc h; exact h
  | cons m rest ih =>
    intro acc h
    exact ih (edgeStep acc m) (VInv_edgeStep acc m h)

/-- Under the id invariant, listing the stored nodes' ids lists the keys. -/
theorem values_id_eq_keys (m : List (String × RFNode)) (hm : VInv m) :
    (m.map (fun p => p.2)).map (fun n => n.id) = m.map (fun p => p.1) := by
  induction m with
  | nil => rfl
  | cons p t ih =>
    simp only [List.map_cons]
    rw [hm p (by simp), ih (fun q hq => hm q (by simp [hq]))]

/-- C6 amended: whenever the parse succeeds (returns a node collection at
all), the returned node order is the first-insertion order of the two
sequential passes — first the ids of the qualifying node-definition matches,
in text order, then the extracted endpoints (source before target) of the
edge matches, in text order, each id kept at its first occurrence.  (The
claim's first-point-of-reference order fails because edge-only references
are inserted after all definition-scan references; see the
counterexample.) -/
theorem claim6_insertion_order (input : String) (res : ParseResult)
    (h : parseDotToReactFlow input = some res) :
    res.nodes.map (fun n => n.id) =
      dedupFirst
        ((((nodeDefMatches input).filter qualifiesNodeDef).map (fun d => d.id)) ++
          ((edgeMatches input).flatMap (fun m => [m.src, m.tgt]))) := by
  rw [parseDotToReactFlow_eq] at h
  by_cases ht : parseThrows input = true
  · rw [if_pos ht] at h
    exact absurd h (by simp)
  · rw [if_neg ht] at h
    have hres := Option.some.inj h
    subst hres
    unfold parseDotToReactFlowT dedupFirst
    dsimp only
    generalize nodeDefMatches input = ds
    generalize edgeMatches input = es
    have hV : VInv ((es.foldl edgeStep (ds.foldl defStep [], [], 0)).1) :=
      VInv_edgeFold es (ds.foldl defStep [], [], 0)
        (VInv_defFold ds [] (fun p hp => absurd hp (List.not_mem_nil p)))
    rw [values_id_eq_keys _ hV, mkeys_edgeFold, mkeys_defFold, dedupInto_append]
    rfl

/-- C6 witness: on `digraph G { A -> B; C; }` the parse succeeds and the
returned order is the two-pass first-insertion order. -/
theorem claim6_witness :
    ((parseDotToReactFlow "digraph G \x7b A -> B; C; \x7d").getD
        { nodes := [], edges := [] }).nodes.map (fun n => n.id) =
      dedupFirst
        ((((nodeDefMatches "digraph G \x7b A -> B; C; \x7d").filter
            qualifiesNodeDef).map (fun d => d.id)) ++
          ((edgeMatches "digraph G \x7b A -> B; C; \x7d").flatMap
            (fun m => [m.src, m.tgt]))) :=
  claim6_insertion_order "digraph G \x7b A -> B; C; \x7d"
    ((parseDotToReactFlow "digraph G \x7b A -> B; C; \x7d").getD
      { nodes := [], edges := [] })
    (by decide)

/-- C7 amended: whenever the parse succeeds, every endpoint identifier
extracted by the edge scan is present in the returned node collection
(missing endpoints are auto-created).  The edge objects' own
`source`/`target` fields can nevertheless name unknown ids, because an
explicit `source=`/`target=` attribute overwrites them after auto-creation
(see the counterexample). -/
theorem claim7_extracted_endpoints_in_nodes (input : String) (m : EdgeM)
    (res : ParseResult) (hm : m ∈ edgeMatches input)
    (h : parseDotToReactFlow input = some res) :
    m.src ∈ res.nodes.map (fun n => n.id) ∧
    m.tgt ∈ res.nodes.map (fun n => n.id) := by
  rw [parseDotToReactFlow_eq] at h
  by_cases ht : parseThrows input = true
  · rw [if_pos ht] at h
    exact absurd h (by simp)
  · rw [if_neg ht] at h
    have hres := Option.some.inj h
    subst hres
    unfold parseDotToReactFlowT
    dsimp only
    revert hm
    generalize nodeDefMatches input = ds
    generalize edgeMatches input = es
    intro hm
    have hV : VInv ((es.foldl edgeStep (ds.foldl defStep [], [], 0)).1) :=
      VInv_edgeFold es (ds.foldl defStep [], [], 0)
        (VInv_defFold ds [] (fun p hp => absurd hp (List.not_mem_nil p)))
    rw [values_id_eq_keys _ hV, mkeys_edgeFold]
    constructor
    · refine mem_dedupInto_of_mem _ _ _ ?_
      exact List.mem_flatMap.mpr ⟨m, hm, by simp⟩
    · refine mem_dedupInto_of_mem _ _ _ ?_
      exact List.mem_flatMap.mpr ⟨m, hm, by simp⟩

/-- C7 witness: the single edge match of `digraph G { A -> B; }` has both
extracted endpoints among the parsed node ids of the successful parse. -/
theorem claim7_witness :
    "A" ∈ ((parseDotToReactFlow "digraph G \x7b A -> B; \x7d").getD
      { nodes := [], edges := [] }).nodes.map (fun n => n.id) ∧
    "B" ∈ ((parseDotToReactFlow "digraph G \x7b A -> B; \x7d").getD
      { nodes := [], edges := [] }).nodes.map (fun n => n.id) :=
  claim7_extracted_endpoints_in_nodes "digraph G \x7b A -> B; \x7d"
    { src := "A", tgt := "B", attrs := "" }
    ((parseDotToReactFlow "digraph G \x7b A -> B; \x7d").getD
      { nodes := [], edges := [] })
    (by decide) (by decide)

/-! ### C8: radial geometry -/

/-- Setting a batch of bindings left to right. -/
def msetAll {κ α : Type} [BEq κ] (m kvs : List (κ × α)) : List (κ × α) :=
  kvs.foldl (fun acc p => mset acc p.1 p.2) m

theorem mget_msetAll_not_mem {κ α : Type} [BEq κ] [LawfulBEq κ]
    (m kvs : List (κ × α)) (k : κ) (h : k ∉ kvs.map (fun p => p.1)) :
    mget (msetAll m kvs) k = mget m k := by
  induction kvs generalizing m with
  | nil => rfl
  | cons p t ih =>
    simp only [List.map_cons, List.mem_cons, not_or] at h
    show mget (msetAll (mset m p.1 p.2) t) k = mget m k
    rw [ih _ h.2, mget_mset, if_neg (by simp [h.1])]

theorem mget_msetAll_nodup {κ α : Type} [BEq κ] [LawfulBEq κ]
    (m kvs : List (κ × α)) (k : κ) (v : α)
    (hnd : (kvs.map (fun p => p.1)).Nodup) (hin : (k, v) ∈ kvs) :
    mget (msetAll m kvs) k = some v := by
  induction kvs generalizing m with
  | nil => simp at hin
  | cons p t ih =>
    rw [List.map_cons] at hnd
    have hnd1 := (List.nodup_cons.mp hnd).1
    have hnd2 := (List.nodup_cons.mp hnd).2
    show mget (msetAll (mset m p.1 p.2) t) k = some v
    rcases List.mem_cons.mp hin with heq | ht
    · cases heq
      rw [mget_msetAll_not_mem _ _ _ hnd1, mget_mset, if_pos (by simp)]
    · exact ih _ hnd2 ht

/-- The enumerated slot-assignment fold is a batch set. -/
theorem msetAll_enum (A : List (String × ℚ)) (l : List RFNode) (f : Nat → ℚ) :
    msetAll A (l.enum.map (fun p => (p.2.id, f p.1))) =
      l.enum.foldl (fun am p => mset am p.2.id (f p.1)) A := by
  unfold msetAll
  rw [List.foldl_map]

/-- After the enumerated batch set, each node of a duplicate-free list reads
back its own slot. -/
theorem mget_msetAll_enum (A : List (String × ℚ)) (l : List RFNode)
    (f : Nat → ℚ) (hnd : (l.map (fun n => n.id)).Nodup) :
    l.map (fun n =>
      (mget (msetAll A (l.enum.map (fun p => (p.2.id, f p.1)))) n.id).getD 0) =
      (List.range l.length).map f := by
  have hkeys : ((l.enum.map (fun p => (p.2.id, f p.1))).map (fun p => p.1)) =
      l.map (fun n => n.id) := by
    rw [List.map_map]
    have h2 : ((fun (p : String × ℚ) => p.1) ∘
        (fun (p : Nat × RFNode) => (p.2.id, f p.1))) =
        (fun (n : RFNode) => n.id) ∘ Prod.snd := rfl
    rw [h2, ← List.map_map, List.enum_map_snd]
  apply List.ext_getElem
  · simp
  · intro i h1 h2
    have hlen : i < l.length := by simpa using h1
    simp only [List.getElem_map, List.getElem_range]
    have henum : (i, l[i]) ∈ l.enum := by
      rw [← List.getElem_enum l i (by simpa using hlen)]
      exact List.getElem_mem (by simpa using hlen)
    have hmem : (l[i].id, f i) ∈ l.enum.map (fun p => (p.2.id, f p.1)) :=
      List.mem_map.mpr ⟨(i, l[i]), henum, rfl⟩
    rw [mget_msetAll_nodup _ _ _ _ (by rw [hkeys]; exact hnd) hmem]
    rfl

/-- `insertStable` only moves the inserted element inward. -/
theorem insertStable_perm {α : Type} (le : α → α → Bool) (x : α) (l : List α) :
    (insertStable le x l).Perm (x :: l) := by
  induction l with
  | nil => exact List.Perm.refl _
  | cons y ys ih =>
    unfold insertStable
    split
    · exact (ih.cons y).trans (List.Perm.swap x y ys)
    · exact List.Perm.refl _

/-- The stable sort is a permutation (the multiset of elements is kept). -/
theorem stableSort_perm {α : Type} (le : α → α → Bool) (l : List α) :
    (stableSort le l).Perm l := by
  unfold stableSort
  suffices h : ∀ (l acc : List α),
      (l.foldl (fun a x => insertStable le x a) acc).Perm (acc ++ l) by
    simpa using h l []
  intro l
  induction l with
  | nil => intro acc; simp
  | cons x t ih =>
    intro acc
    simp only [List.foldl_cons]
    refine (ih (insertStable le x acc)).trans ?_
    refine ((insertStable_perm le x acc).append_right t).trans ?_
    exact List.perm_middle.symm

theorem groupStep_get (lv : LMap) (g : List (Nat × List RFNode)) (n : RFNode)
    (f : Nat → List RFNode) (hf : ∀ j, (mget g j).getD [] = f j) (j : Nat) :
    (mget (groupStep lv g n) j).getD [] =
      f j ++ (if levelOfD lv n.id == j then [n] else []) := by
  unfold groupStep
  dsimp only
  cases hmg : mget g (levelOfD lv n.id) with
  | some l =>
    dsimp only
    rw [mget_mset]
    have hl : l = f (levelOfD lv n.id) := by rw [← hf, hmg]; rfl
    by_cases hj : j = levelOfD lv n.id
    · subst hj
      rw [if_pos (by simp), if_pos (by simp)]
      simp [hl]
    · rw [if_neg (by simp only [beq_iff_eq]; exact hj), hf j,
        if_neg (by simp only [beq_iff_eq]; exact fun hc => hj hc.symm)]
      simp
  | none =>
    dsimp only
    rw [mget_mset]
    have hl : f (levelOfD lv n.id) = [] := by rw [← hf, hmg]; rfl
    by_cases hj : j = levelOfD lv n.id
    · subst hj
      rw [if_pos (by simp), if_pos (by simp)]
      simp [hl]
    · rw [if_neg (by simp only [beq_iff_eq]; exact hj), hf j,
        if_neg (by simp only [beq_iff_eq]; exact fun hc => hj hc.symm)]
      simp

theorem groups_fold_get (lv : LMap) :
    ∀ (ns : List RFNode) (g : List (Nat × List RFNode)) (f : Nat → List RFNode),
      (∀ j, (mget g j).getD [] = f j) →
      ∀ j, (mget (ns.foldl (groupStep lv) g) j).getD [] =
        f j ++ ns.filter (fun n => levelOfD lv n.id == j) := by
  intro ns
  induction ns with
  | nil => intro g f hf j; simp [hf j]
  | cons n t ih =>
    intro g f hf j
    simp only [List.foldl_cons, List.filter_cons]
    rw [ih (groupStep lv g n)
      (fun j' => f j' ++ (if levelOfD lv n.id == j' then [n] else []))
      (fun j' => groupStep_get lv g n f hf j') j]
    by_cases hc : (levelOfD lv n.id == j) = true
    · rw [if_pos hc, if_pos hc]
      simp
    · rw [if_neg hc, if_neg hc]
      simp

/-- The level groups are exactly the level-preimage filters of the node
list. -/
theorem radialLevelGroups_get (nodes : List RFNode) (lv : LMap) (j : Nat) :
    (mget (radialLevelGroups nodes lv) j).getD [] =
      nodes.filter (fun n => levelOfD lv n.id == j) := by
  have h := groups_fold_get lv nodes [] (fun _ => []) (fun _ => rfl) j
  simpa [radialLevelGroups] using h

theorem level_of_mem_group (nodes : List RFNode) (lv : LMap) (j : Nat)
    (n : RFNode) (hn : n ∈ (mget (radialLevelGroups nodes lv) j).getD []) :
    levelOfD lv n.id = j ∧ n ∈ nodes := by
  rw [radialLevelGroups_get] at hn
  have h := List.mem_filter.mp hn
  exact ⟨by simpa using h.2, h.1⟩

theorem group_ids_nodup (nodes : List RFNode) (lv : LMap) (j : Nat)
    (hnd : (nodes.map (fun n => n.id)).Nodup) :
    (((mget (radialLevelGroups nodes lv) j).getD []).map
      (fun n => n.id)).Nodup := by
  rw [radialLevelGroups_get]
  exact List.Nodup.sublist (List.Sublist.map _ (List.filter_sublist _)) hnd

theorem lmapMax_ge (lv : LMap) (p : String × Nat) (hp : p ∈ lv) :
    p.2 ≤ lmapMax lv := by
  unfold lmapMax
  suffices h : ∀ (l : List (String × Nat)) (a : Nat),
      a ≤ l.foldl (fun m q => max m q.2) a ∧
      ∀ q ∈ l, q.2 ≤ l.foldl (fun m q => max m q.2) a by
    exact (h lv 0).2 p hp
  intro l
  induction l with
  | nil => intro a; exact ⟨Nat.le_refl a, by simp⟩
  | cons q t ih =>
    intro a
    refine ⟨?_, ?_⟩
    · exact Nat.le_trans (Nat.le_max_left a q.2) (ih (max a q.2)).1
    · intro q' hq'
      rcases List.mem_cons.mp hq' with rfl | hq't
      · exact Nat.le_trans (Nat.le_max_right a q'.2) (ih (max a q'.2)).1
      · exact (ih (max a q.2)).2 q' hq't

/-- The slot-assignment fold leaves ids outside the level untouched. -/
theorem slots_fill_mget_not_mem (ops : FloatOps) (G : List RFNode)
    (le : RFNode → RFNode → Bool) (A : List (String × ℚ)) (x : String)
    (hx : x ∉ G.map (fun b => b.id)) :
    mget ((stableSort le G).enum.foldl
      (fun am p => mset am p.2.id (slotAngle ops G.length p.1)) A) x =
      mget A x := by
  rw [← msetAll_enum]
  apply mget_msetAll_not_mem
  intro hc
  apply hx
  have hkeys : (((stableSort le G).enum.map
      (fun p => (p.2.id, slotAngle ops G.length p.1))).map (fun p => p.1)) =
      (stableSort le G).map (fun n => n.id) := by
    rw [List.map_map]
    have h2 : ((fun (p : String × ℚ) => p.1) ∘
        (fun (p : Nat × RFNode) => (p.2.id, slotAngle ops G.length p.1))) =
        (fun (n : RFNode) => n.id) ∘ Prod.snd := rfl
    rw [h2, ← List.map_map, List.enum_map_snd]
  rw [hkeys] at hc
  exact ((stableSort_perm le G).map (fun n => n.id)).mem_iff.mp hc

/-- The slot assignment of one level reads back as a permutation of the
evenly spaced slots. -/
theorem slots_fill_perm (ops : FloatOps) (G : List RFNode)
    (le : RFNode → RFNode → Bool) (A : List (String × ℚ))
    (hgnd : (G.map (fun n => n.id)).Nodup) :
    (G.map (fun n =>
      (mget ((stableSort le G).enum.foldl
        (fun am p => mset am p.2.id (slotAngle ops G.length p.1)) A)
        n.id).getD 0)).Perm
      ((List.range G.length).map (slotAngle ops G.length)) := by
  have hperm : (stableSort le G).Perm G := stableSort_perm le G
  have hndS : ((stableSort le G).map (fun n => n.id)).Nodup :=
    ((hperm.map (fun n => n.id)).nodup_iff).mpr hgnd
  have hfill := mget_msetAll_enum A (stableSort le G)
    (slotAngle ops G.length) hndS
  rw [msetAll_enum] at hfill
  refine ((hperm.symm).map _).trans ?_
  rw [hfill, hperm.length_eq]

theorem processLevel_mget_not_mem (ops : FloatOps)
    (groups : List (Nat × List RFNode)) (parents : List (String × List String))
    (j : Nat) (A : List (String × ℚ)) (x : String)
    (hx : x ∉ ((mget groups j).getD []).map (fun b => b.id)) :
    mget (radialProcessLevel ops groups parents A j) x = mget A x := by
  unfold radialProcessLevel
  dsimp only
  by_cases hemp : ((mget groups j).getD []).isEmpty = true
  · rw [if_pos hemp]
  · rw [if_neg hemp]
    exact slots_fill_mget_not_mem ops _ _ A x hx

theorem fold_processLevel_mget (ops : FloatOps)
    (groups : List (Nat × List RFNode))
    (parents : List (String × List String)) :
    ∀ (L : List Nat) (A : List (String × ℚ)) (x : String),
      (∀ j ∈ L, x ∉ ((mget groups j).getD []).map (fun b => b.id)) →
      mget (L.foldl (radialProcessLevel ops groups parents) A) x = mget A x := by
  intro L
  induction L with
  | nil => intro A x _; rfl
  | cons j rest ih =>
    intro A x h
    simp only [List.foldl_cons]
    rw [ih _ x (fun j' hj' => h j' (List.mem_cons_of_mem _ hj'))]
    exact processLevel_mget_not_mem ops groups parents j A x
      (h j (List.mem_cons_self _ _))

/-- Processing one level fills that level's angles with the evenly spaced
slots in stably sorted order. -/
theorem processLevel_fill (ops : FloatOps)
    (groups : List (Nat × List RFNode)) (parents : List (String × List String))
    (j : Nat) (A : List (String × ℚ))
    (hgnd : (((mget groups j).getD []).map (fun n => n.id)).Nodup) :
    ((((mget groups j).getD []).map (fun n =>
      (mget (radialProcessLevel ops groups parents A j) n.id).getD 0))).Perm
      ((List.range ((mget groups j).getD []).length).map
        (slotAngle ops ((mget groups j).getD []).length)) := by
  by_cases hemp : ((mget groups j).getD []).isEmpty = true
  · rw [List.isEmpty_iff.mp hemp]
    exact List.Perm.refl _
  · unfold radialProcessLevel
    dsimp only
    rw [if_neg hemp]
    exact slots_fill_perm ops ((mget groups j).getD []) _ A hgnd

/-- Over a duplicate-free level list containing `k` whose other levels never
mention the ids of level `k`, the level-`k` angle readbacks are a permutation
of the slots. -/
theorem fold_processLevel_map (ops : FloatOps)
    (groups : List (Nat × List RFNode)) (parents : List (String × List String))
    (k : Nat) :
    ∀ (L : List Nat) (A : List (String × ℚ)),
      k ∈ L → L.Nodup →
      (∀ j ∈ L, j ≠ k → ∀ n ∈ (mget groups k).getD [],
        n.id ∉ ((mget groups j).getD []).map (fun b => b.id)) →
      (((mget groups k).getD []).map (fun n => n.id)).Nodup →
      ((((mget groups k).getD []).map (fun n =>
        (mget (L.foldl (radialProcessLevel ops groups parents) A) n.id).getD 0))).Perm
        ((List.range ((mget groups k).getD []).length).map
          (slotAngle ops ((mget groups k).getD []).length)) := by
  intro L
  induction L with
  | nil => intro A hkL _ _ _; simp at hkL
  | cons j rest ih =>
    intro A hkL hnd hdisj hgnd
    simp only [List.foldl_cons]
    by_cases hjk : j = k
    · subst hjk
      have hknotin : j ∉ rest := (List.nodup_cons.mp hnd).1
      have hmapeq : ((mget groups j).getD []).map (fun n =>
          (mget (rest.foldl (radialProcessLevel ops groups parents)
            (radialProcessLevel ops groups parents A j)) n.id).getD 0) =
          ((mget groups j).getD []).map (fun n =>
            (mget (radialProcessLevel ops groups parents A j) n.id).getD 0) := by
        apply List.map_congr_left
        intro n hn
        rw [fold_processLevel_mget ops groups parents rest
          (radialProcessLevel ops groups parents A j) n.id
          (fun j' hj' => hdisj j' (List.mem_cons_of_mem _ hj')
            (fun hc => hknotin (hc ▸ hj')) n hn)]
      rw [hmapeq]
      exact processLevel_fill ops groups parents j A hgnd
    · have hkrest : k ∈ rest := by
        rcases List.mem_cons.mp hkL with h | h
        · exact absurd h.symm hjk
        · exact h
      exact ih _ hkrest (List.nodup_cons.mp hnd).2
        (fun j' hj' hne n hn => hdisj j' (List.mem_cons_of_mem _ hj') hne n hn)
        hgnd

/-- Membership in the zip of a mapped list with its source. -/
theorem mem_map_zip_self {α β : Type} (F : α → β) (l : List α) (p : β × α)
    (hp : p ∈ (l.map F).zip l) : p.1 = F p.2 ∧ p.2 ∈ l := by
  induction l with
  | nil => simp at hp
  | cons a t ih =>
    rw [List.map_cons, List.zip_cons_cons] at hp
    rcases List.mem_cons.mp hp with rfl | h
    · exact ⟨rfl, List.mem_cons_self _ _⟩
    · obtain ⟨h1, h2⟩ := ih h
      exact ⟨h1, List.mem_cons_of_mem _ h2⟩

/-- C8 amended (for levels `k ≥ 1`; the center level 0 fails the claim, see
the counterexample): in the radial layout, (a) the angles assigned within
level `k` — read back from the final angle map over the level's group — are
a permutation of the evenly spaced slots `2*pi*i/n`, `i = 0..n-1`, for `n`
the level's node count (requires duplicate-free node ids), and (b) under the
ideal-trigonometry hypothesis `cos^2 + sin^2 = 1`, every output node of
level `k` lies at squared distance exactly `r^2` from the center `(400,400)`,
where `r` is the level's computed minimum radius
`max(baseRadius + k*radiusStep, n*minSpacing/(2*pi))`. -/
theorem claim8_radial_geometry (ops : FloatOps) (nodes : List RFNode)
    (edges : List RFEdge) (centerNodeId : Option String) (spacing : Spacing)
    (htrig : ∀ θ : ℚ, ops.cos θ * ops.cos θ + ops.sin θ * ops.sin θ = 1)
    (hnd : (nodes.map (fun n => n.id)).Nodup) (k : Nat) (hk : 1 ≤ k) :
    ((((mget (radialLevelGroups nodes (radialLevels nodes edges centerNodeId))
        k).getD []).map
        (fun n => (mget (radialAngles ops nodes edges centerNodeId)
          n.id).getD 0)).Perm
      ((List.range ((mget (radialLevelGroups nodes
          (radialLevels nodes edges centerNodeId)) k).getD []).length).map
        (slotAngle ops ((mget (radialLevelGroups nodes
          (radialLevels nodes edges centerNodeId)) k).getD []).length))) ∧
    ∀ p ∈ (radialLayout ops nodes edges centerNodeId spacing).zip nodes,
      levelOfD (radialLevels nodes edges centerNodeId) p.2.id = k →
      ∃ px py : ℚ, p.1.position = some ⟨px, py⟩ ∧
        (px - 400) * (px - 400) + (py - 400) * (py - 400) =
          radialRadius ops (calculateMinSpacing nodes spacing.nodeSpacing)
              spacing.radiusStep
              ((mget (radialLevelGroups nodes
                (radialLevels nodes edges centerNodeId)) k).getD []).length k *
            radialRadius ops (calculateMinSpacing nodes spacing.nodeSpacing)
              spacing.radiusStep
              ((mget (radialLevelGroups nodes
                (radialLevels nodes edges centerNodeId)) k).getD []).length k := by
  constructor
  · by_cases hgrp : (mget (radialLevelGroups nodes
        (radialLevels nodes edges centerNodeId)) k).getD [] = []
    · rw [hgrp]
      exact List.Perm.refl _
    · obtain ⟨n0, hn0⟩ := List.exists_mem_of_ne_nil _ hgrp
      have hlev0 := (level_of_mem_group nodes _ k n0 hn0).1
      have hsome : mget (radialLevels nodes edges centerNodeId) n0.id =
          some k := by
        simp only [levelOfD] at hlev0
        cases hmv : mget (radialLevels nodes edges centerNodeId) n0.id with
        | none =>
          rw [hmv] at hlev0
          simp at hlev0
          omega
        | some v =>
          rw [hmv] at hlev0
          simp at hlev0
          rw [hlev0]
      have hkmax : k ≤ lmapMax (radialLevels nodes edges centerNodeId) :=
        lmapMax_ge _ (n0.id, k) (mget_mem _ _ _ hsome)
      have hA : radialAngles ops nodes edges centerNodeId =
          (List.range' 1 (lmapMax (radialLevels nodes edges centerNodeId))).foldl
            (radialProcessLevel ops
              (radialLevelGroups nodes (radialLevels nodes edges centerNodeId))
              (radialParents edges (radialLevels nodes edges centerNodeId)))
            (match radialCenter nodes edges centerNodeId with
             | some c => [(c, 0)]
             | none => []) := rfl
      rw [hA]
      apply fold_processLevel_map
      · exact List.mem_range'_1.mpr ⟨hk, by omega⟩
      · exact List.nodup_range' 1 _
      · intro j hj hne n hn hc
        obtain ⟨b, hb, hbid⟩ := List.mem_map.mp hc
        have hbl := (level_of_mem_group nodes _ j b hb).1
        have hnl := (level_of_mem_group nodes _ k n hn).1
        rw [hbid] at hbl
        exact hne (hbl.symm.trans hnl)
      · exact group_ids_nodup nodes _ k hnd
  · intro p hp hlev
    have hL : radialLayout ops nodes edges centerNodeId spacing =
        nodes.map (fun node => { node with position := some ⟨(400 : ℚ) +
          (if levelOfD (radialLevels nodes edges centerNodeId) node.id = 0
           then 0
           else radialRadius ops
              (calculateMinSpacing nodes spacing.nodeSpacing)
              spacing.radiusStep
              ((mget (radialLevelGroups nodes
                (radialLevels nodes edges centerNodeId))
                (levelOfD (radialLevels nodes edges centerNodeId)
                  node.id)).getD []).length
              (levelOfD (radialLevels nodes edges centerNodeId) node.id) *
            ops.cos ((mget (radialAngles ops nodes edges centerNodeId)
              node.id).getD 0)),
          (400 : ℚ) +
          (if levelOfD (radialLevels nodes edges centerNodeId) node.id = 0
           then 0
           else radialRadius ops
              (calculateMinSpacing nodes spacing.nodeSpacing)
              spacing.radiusStep
              ((mget (radialLevelGroups nodes
                (radialLevels nodes edges centerNodeId))
                (levelOfD (radialLevels nodes edges centerNodeId)
                  node.id)).getD []).length
              (levelOfD (radialLevels nodes edges centerNodeId) node.id) *
            ops.sin ((mget (radialAngles ops nodes edges centerNodeId)
              node.id).getD 0))⟩ }) := rfl
    rw [hL] at hp
    obtain ⟨hfp, -⟩ := mem_map_zip_self _ nodes p hp
    refine ⟨400 +
      radialRadius ops (calculateMinSpacing nodes spacing.nodeSpacing)
          spacing.radiusStep
          ((mget (radialLevelGroups nodes
            (radialLevels nodes edges centerNodeId)) k).getD []).length k *
        ops.cos ((mget (radialAngles ops nodes edges centerNodeId)
          p.2.id).getD 0),
      400 +
      radialRadius ops (calculateMinSpacing nodes spacing.nodeSpacing)
          spacing.radiusStep
          ((mget (radialLevelGroups nodes
            (radialLevels nodes edges centerNodeId)) k).getD []).length k *
        ops.sin ((mget (radialAngles ops nodes edges centerNodeId)
          p.2.id).getD 0), ?_, ?_⟩
    · rw [hfp]
      dsimp only
      rw [hlev, if_neg (by omega : ¬ k = 0), if_neg (by omega : ¬ k = 0)]
    · have key : ∀ r c s : ℚ, c * c + s * s = 1 →
          (400 + r * c - 400) * (400 + r * c - 400) +
            (400 + r * s - 400) * (400 + r * s - 400) = r * r := by
        intro r c s h
        have h2 : (400 + r * c - 400) * (400 + r * c - 400) +
            (400 + r * s - 400) * (400 + r * s - 400) =
            r * r * (c * c + s * s) := by ring
        rw [h2, h, mul_one]
      exact key _ _ _ (htrig _)

/-- C8 witness: on the two-node graph `A -> B` with ideal trigonometry, the
level-1 angles are a permutation of the evenly spaced slots and the level-1
output node lies at squared distance `r^2` from `(400, 400)`. -/
theorem claim8_witness :
    ((((mget (radialLevelGroups [hNode "A", hNode "B"]
        (radialLevels [hNode "A", hNode "B"] [hEdge "A" "B"] none))
        1).getD []).map
        (fun n => (mget (radialAngles opsW [hNode "A", hNode "B"]
          [hEdge "A" "B"] none) n.id).getD 0)).Perm
      ((List.range ((mget (radialLevelGroups [hNode "A", hNode "B"]
          (radialLevels [hNode "A", hNode "B"] [hEdge "A" "B"] none))
          1).getD []).length).map
        (slotAngle opsW ((mget (radialLevelGroups [hNode "A", hNode "B"]
          (radialLevels [hNode "A", hNode "B"] [hEdge "A" "B"] none))
          1).getD []).length))) ∧
    ∀ p ∈ (radialLayout opsW [hNode "A", hNode "B"] [hEdge "A" "B"] none
        defaultSpacing).zip [hNode "A", hNode "B"],
      levelOfD (radialLevels [hNode "A", hNode "B"] [hEdge "A" "B"] none)
        p.2.id = 1 →
      ∃ px py : ℚ, p.1.position = some ⟨px, py⟩ ∧
        (px - 400) * (px - 400) + (py - 400) * (py - 400) =
          radialRadius opsW (calculateMinSpacing [hNode "A", hNode "B"]
              defaultSpacing.nodeSpacing) defaultSpacing.radiusStep
              ((mget (radialLevelGroups [hNode "A", hNode "B"]
                (radialLevels [hNode "A", hNode "B"] [hEdge "A" "B"] none))
                1).getD []).length 1 *
            radialRadius opsW (calculateMinSpacing [hNode "A", hNode "B"]
              defaultSpacing.nodeSpacing) defaultSpacing.radiusStep
              ((mget (radialLevelGroups [hNode "A", hNode "B"]
                (radialLevels [hNode "A", hNode "B"] [hEdge "A" "B"] none))
                1).getD []).length 1 :=
  claim8_radial_geometry opsW [hNode "A", hNode "B"] [hEdge "A" "B"] none
    defaultSpacing (fun θ => by simp [opsW]) (by decide) 1 (by decide)

end Graph2
